import Mathlib

/-!
Verification of the adjust-cli callback model, snapshot engine and
filter/mutation engine.

Python strings are modelled as lists of bytes (`PyStr`): a Python `str`
is represented by the byte sequence of its UTF-8 encoding.  All string
operations of the source (splitting on ASCII delimiters, percent
encoding and decoding, lexicographic comparison) act on that
representation exactly as CPython acts on the underlying text; ASCII
character classes (`isalpha`, `lower`) are modelled on ASCII bytes.
-/

namespace AdjustCLI

/-- Byte strings standing for Python `str` values. -/
abbrev PyStr := List Nat

/-- Conversion from a Lean string literal (ASCII contents) to a `PyStr`. -/
def pstr (s : String) : PyStr := s.data.map Char.toNat

/-- ASCII uppercase or lowercase letter. -/
def isAsciiAlpha (b : Nat) : Bool := (65 ≤ b && b ≤ 90) || (97 ≤ b && b ≤ 122)

/-- ASCII decimal digit. -/
def isAsciiDigit (b : Nat) : Bool := 48 ≤ b && b ≤ 57

/-- Characters allowed in a URL scheme after the first one:
letters, digits, and the bytes of plus, minus and dot
(`scheme_chars` of `urllib.parse`). -/
def isSchemeChar (b : Nat) : Bool :=
  isAsciiAlpha b || isAsciiDigit b || b = 43 || b = 45 || b = 46

/-- ASCII lowercase of one byte (Python `str.lower` on scheme text). -/
def lowerByte (b : Nat) : Nat := if 65 ≤ b && b ≤ 90 then b + 32 else b

/-- Strict lexicographic order on byte strings; this is exactly the order
Python uses to compare the corresponding `str` values, because UTF-8
byte order agrees with code-point order. -/
def strLt : PyStr → PyStr → Bool
  | [], [] => false
  | [], _ :: _ => true
  | _ :: _, [] => false
  | a :: as, b :: bs => if a < b then true else if b < a then false else strLt as bs

/-- Splits a byte string at the first occurrence of byte `c`, returning
the parts before and after it, or `none` if `c` does not occur. -/
def splitOnFirst (c : Nat) : PyStr → Option (PyStr × PyStr)
  | [] => none
  | b :: rest =>
    if b = c then some ([], rest)
    else (splitOnFirst c rest).map (fun p => (b :: p.1, p.2))

/-- Cleanup `urlsplit` applies to its input: strip leading C0 control or
space bytes (`_WHATWG_C0_CONTROL_OR_SPACE`), then delete every tab,
carriage return and line feed (`_UNSAFE_URL_BYTES_TO_REMOVE`). -/
def removeUnsafe (s : PyStr) : PyStr :=
  (s.dropWhile (fun b => b ≤ 32)).filter (fun b => b ≠ 9 && b ≠ 13 && b ≠ 10)

/-- Scheme extraction of `urllib.parse.urlsplit`: if the string has a colon
at position `i > 0`, its first character is an ASCII letter and all
characters before the colon are scheme characters, the scheme is the
lowercased prefix; otherwise the scheme is empty. -/
def splitScheme (s : PyStr) : PyStr × PyStr :=
  match splitOnFirst 58 s with
  | none => ([], s)
  | some (pre, post) =>
    match pre with
    | [] => ([], s)
    | b :: bs =>
      if isAsciiAlpha b && bs.all isSchemeChar then ((b :: bs).map lowerByte, post)
      else ([], s)

/-- Netloc extraction (`_splitnetloc`): if the remaining URL starts with two
slashes, the netloc extends to the next slash, question mark or hash. -/
def splitNetloc (s : PyStr) : PyStr × PyStr :=
  match s with
  | 47 :: 47 :: rest =>
    let stop := fun (b : Nat) => b = 47 || b = 63 || b = 35
    (rest.takeWhile (fun b => !stop b), rest.dropWhile (fun b => !stop b))
  | _ => ([], s)

/-- Errors of `CallbackURL.from_url`: the `Invalid IPv6 URL` `ValueError`
raised by `urlsplit` for a bracket-mismatched netloc, and the
`AssertionError` raised for a query containing `://`. -/
inductive ParseErr
  | invalidIPv6
  | malformedQuery
  deriving Repr, DecidableEq

/-- Result tuple of `urlsplit`: scheme, netloc, path, query, fragment. -/
structure SplitResult where
  scheme : PyStr
  netloc : PyStr
  path : PyStr
  query : PyStr
  fragment : PyStr
  deriving Repr, DecidableEq

/-- Model of `urllib.parse.urlsplit` (with `allow_fragments` true): clean
the input, extract scheme, netloc (raising `Invalid IPv6 URL` for a
netloc holding a square bracket without its partner), fragment (at the
first hash) and query (at the first question mark of what remains).
Two further rejection paths of the stdlib function are outside the
scope of this byte model and deliberately not modelled:
`_check_bracketed_host`, which runs only when the netloc holds both
`[` and `]` and validates the address between them through the
`ipaddress` module, and `_checknetloc`, an NFKC-normalization check
that returns immediately unless the netloc has a character above 127.
Both checks are therefore vacuous whenever the netloc is ASCII and
bracket-free; the theorem characterizing the failure behaviour of the
parser is stated only under that hypothesis (on its computed netloc,
`urlsplitNetloc`), where this model agrees with CPython exactly.
Elsewhere the model is faithful for the success path only. -/
def urlsplit (s : PyStr) : Except ParseErr SplitResult :=
  let s := removeUnsafe s
  let scheme := (splitScheme s).1
  let rest := (splitScheme s).2
  let netloc := (splitNetloc rest).1
  let rest2 := (splitNetloc rest).2
  if (netloc.contains 91 && !netloc.contains 93) ||
     (netloc.contains 93 && !netloc.contains 91) then
    .error .invalidIPv6
  else
    let fragment := ((splitOnFirst 35 rest2).map Prod.snd).getD []
    let rest3 := ((splitOnFirst 35 rest2).map Prod.fst).getD rest2
    let query := ((splitOnFirst 63 rest3).map Prod.snd).getD []
    let path := ((splitOnFirst 63 rest3).map Prod.fst).getD rest3
    .ok ⟨scheme, netloc, path, query, fragment⟩

/-- The netloc component exactly as `urlsplit` computes it before any of
its validation checks run: all three stdlib checks (`Invalid IPv6 URL`,
`_check_bracketed_host`, `_checknetloc`) inspect this string. -/
def urlsplitNetloc (s : PyStr) : PyStr :=
  (splitNetloc (splitScheme (removeUnsafe s)).2).1

/-- Scheme list `urllib.parse.uses_netloc`. -/
def uses_netloc : List PyStr :=
  [pstr (""), pstr ("ftp"), pstr ("http"), pstr ("gopher"), pstr ("nntp"),
   pstr ("telnet"), pstr ("imap"), pstr ("wais"), pstr ("file"), pstr ("mms"),
   pstr ("https"), pstr ("shttp"), pstr ("snews"), pstr ("prospero"),
   pstr ("rtsp"), pstr ("rtsps"), pstr ("rtspu"), pstr ("rsync"), pstr ("svn"),
   pstr ("svn+ssh"), pstr ("sftp"), pstr ("nfs"), pstr ("git"),
   pstr ("git+ssh"), pstr ("ws"), pstr ("wss")]

/-- Model of `urllib.parse.urlunsplit`: the double slash is emitted when a
netloc is present, or when the scheme is a known netloc-using one and
the path does not already start with a double slash. -/
def urlunsplit (scheme netloc path query fragment : PyStr) : PyStr :=
  let url := path
  let url :=
    if netloc ≠ [] ||
       (scheme ≠ [] && uses_netloc.contains scheme && url.take 2 ≠ [47, 47]) then
      let url2 := if url ≠ [] && url.take 1 ≠ [47] then 47 :: url else url
      47 :: 47 :: (netloc ++ url2)
    else url
  let url := if scheme ≠ [] then scheme ++ 58 :: url else url
  let url := if query ≠ [] then url ++ 63 :: query else url
  if fragment ≠ [] then url ++ 35 :: fragment else url

/-- Decides whether `pat` occurs as a contiguous substring (Python `in`). -/
def hasSub (pat : PyStr) : PyStr → Bool
  | [] => pat.isEmpty
  | b :: s => pat.isPrefixOf (b :: s) || hasSub pat s

/-- Value of one hexadecimal digit byte, if it is one. -/
def hexVal (b : Nat) : Option Nat :=
  if 48 ≤ b && b ≤ 57 then some (b - 48)
  else if 65 ≤ b && b ≤ 70 then some (b - 55)
  else if 97 ≤ b && b ≤ 102 then some (b - 87)
  else none

/-- Uppercase hexadecimal digit byte of a value below 16 (Python quotes
with `%%%02X`). -/
def hexDigit (n : Nat) : Nat := if n < 10 then n + 48 else n + 55

/-- Model of `urllib.parse.unquote`: each percent sign followed by two hex
digits is decoded into the denoted byte; other bytes pass through.
Working on bytes, this is exactly Python percent decoding of the UTF-8
encoded text, except that escape sequences denoting byte sequences that
are not valid UTF-8 stay as raw bytes where CPython substitutes U+FFFD
(`errors="replace"`); that substitution changes only the identity of
the decoded characters, never the success or shape of a parse. -/
def unquote : PyStr → PyStr
  | 37 :: a :: b :: rest =>
    match hexVal a, hexVal b with
    | some x, some y => (16 * x + y) :: unquote rest
    | _, _ => 37 :: unquote (a :: b :: rest)
  | b :: rest => b :: unquote rest
  | [] => []

/-- Bytes that `urllib.parse.quote` never encodes: ASCII letters, digits,
underscore, dot, minus and tilde. -/
def alwaysSafe (b : Nat) : Bool :=
  isAsciiAlpha b || isAsciiDigit b || b = 95 || b = 46 || b = 45 || b = 126

/-- Percent encoding of one byte given the additional safe set. -/
def quoteByte (safe : List Nat) (b : Nat) : PyStr :=
  if alwaysSafe b || safe.contains b then [b]
  else [37, hexDigit (b / 16), hexDigit (b % 16)]

/-- Model of `urllib.parse.quote` restricted to its use here: percent
encoding of every byte outside the safe sets. -/
def quote (safe : List Nat) (s : PyStr) : PyStr :=
  (s.map (quoteByte safe)).flatten

/-- Model of `urllib.parse.quote_plus`: if the string contains a space,
quote with space added to the safe set and then turn spaces into plus
signs; otherwise plain `quote`. -/
def quotePlus (safe : List Nat) (s : PyStr) : PyStr :=
  if s.contains 32 then
    (quote (safe ++ [32]) s).map (fun b => if b = 32 then 43 else b)
  else quote safe s

/-- Safe set `"/{}"` that `CallbackURL.url` passes to `urlencode`. -/
def urlSafeSet : List Nat := [47, 123, 125]

/-- Python `sep.join(fields)`. -/
def joinSep (sep : PyStr) : List PyStr → PyStr
  | [] => []
  | f :: t => f ++ (if t.isEmpty then [] else sep ++ joinSep sep t)

/-- Model of `urllib.parse.urlencode(pairs, safe="/{}")` with the default
`quote_via=quote_plus`: quote each key and value and join with `=` and
`&`. -/
def urlencode (pairs : List (PyStr × PyStr)) : PyStr :=
  joinSep [38]
    (pairs.map (fun e => quotePlus urlSafeSet e.1 ++ 61 :: quotePlus urlSafeSet e.2))

/-- Python `str.split(sep)` for a one-byte separator: the empty string
yields one empty field, and adjacent separators yield empty fields. -/
def splitAllOn (c : Nat) : PyStr → List PyStr
  | [] => [[]]
  | b :: rest =>
    let r := splitAllOn c rest
    if b = c then [] :: r
    else match r with
      | h :: t => (b :: h) :: t
      | [] => [[b]]

/-- Python `str.replace` of plus by space followed by `unquote`
(the `unquote_plus` treatment `parse_qsl` applies to names and values). -/
def unquotePlus (s : PyStr) : PyStr :=
  unquote (s.map (fun b => if b = 43 then 32 else b))

/-- Decoding of one `name=value` field by `parse_qsl` with
`keep_blank_values=True`: an empty field is skipped, a field without `=`
keeps a blank value, and names and values are percent-decoded. -/
def qslDecodeField (nv : PyStr) : Option (PyStr × PyStr) :=
  if nv.isEmpty then none
  else match splitOnFirst 61 nv with
    | none => some (unquotePlus nv, [])
    | some (n, v) => some (unquotePlus n, unquotePlus v)

/-- Model of `urllib.parse.parse_qsl(qs, keep_blank_values=True)`: split on
`&` and decode each field. -/
def parseQsl (qs : PyStr) : List (PyStr × PyStr) :=
  (splitAllOn 38 qs).filterMap qslDecodeField

/-- Stable insertion of an association pair before the first entry whose
key is not smaller. -/
def insertAssoc (x : PyStr × PyStr) : List (PyStr × PyStr) → List (PyStr × PyStr)
  | [] => [x]
  | y :: ys => if strLt y.1 x.1 then y :: insertAssoc x ys else x :: y :: ys

/-- Stable sort of association pairs by key
(`sorted(..., key=lambda e: e[0])`). -/
def sortPairs (l : List (PyStr × PyStr)) : List (PyStr × PyStr) :=
  l.foldr insertAssoc []

/-- Stable insertion of a string into a list before the first entry that is
not smaller. -/
def insertStr (x : PyStr) : List PyStr → List PyStr
  | [] => [x]
  | y :: ys => if strLt y x then y :: insertStr x ys else x :: y :: ys

/-- Sort of a list of strings (Python `sorted`). -/
def sortStrs (l : List PyStr) : List PyStr :=
  l.foldr insertStr []

/-- Python `dict` update: an existing key keeps its position and takes the
new value, a new key is appended. -/
def dictInsert (d : List (PyStr × PyStr)) (k v : PyStr) : List (PyStr × PyStr) :=
  if d.any (fun e => e.1 = k) then d.map (fun e => if e.1 = k then (k, v) else e)
  else d ++ [(k, v)]

/-- Python `dict(pairs)`: left-to-right insertion, last value wins, first
position kept.  The result lists the dict items in insertion order. -/
def toDict (l : List (PyStr × PyStr)) : List (PyStr × PyStr) :=
  l.foldl (fun d e => dictInsert d e.1 e.2) []

/-- Python `dict` equality: equal key sets and equal value at every key,
independent of item order. -/
def dictEq (d1 d2 : List (PyStr × PyStr)) : Bool :=
  d1.length = d2.length &&
  d1.all (fun e => (d2.lookup e.1) = some e.2) &&
  d2.all (fun e => (d1.lookup e.1) = some e.2)

instance {ε α : Type} [DecidableEq ε] [DecidableEq α] : DecidableEq (Except ε α) := fun a b =>
  match a, b with
  | .ok x, .ok y => if h : x = y then .isTrue (by rw [h]) else .isFalse (by simp [h])
  | .error x, .error y => if h : x = y then .isTrue (by rw [h]) else .isFalse (by simp [h])
  | .ok _, .error _ => .isFalse (by simp)
  | .error _, .ok _ => .isFalse (by simp)

/-- Model of `adjust.api.model.CallbackURL` (a pydantic model).  The
`query` field of the source is a Python `dict[str, str]`; it is
represented here by its item list in insertion order. -/
structure CallbackURL where
  scheme : PyStr
  netloc : PyStr
  path : PyStr
  query : List (PyStr × PyStr)
  fragment : PyStr
  placeholders : List PyStr
  deriving Repr, DecidableEq

/-- Python equality of two `CallbackURL` values: pydantic compares the
fields, and the `query` dicts compare as mappings. -/
def urlEq (u1 u2 : CallbackURL) : Bool :=
  u1.scheme = u2.scheme && u1.netloc = u2.netloc && u1.path = u2.path &&
  dictEq u1.query u2.query && u1.fragment = u2.fragment &&
  u1.placeholders = u2.placeholders

/-- Predicate `is_placeholder` of `CallbackURL.from_url`: a query pair
`(k, v)` is a placeholder marker exactly when `v` is `k` wrapped in one
pair of braces. -/
def isPlaceholderPair (e : PyStr × PyStr) : Bool :=
  e.2 = 123 :: e.1 ++ [125]

/-- Model of `CallbackURL.from_url`: split the URL, assert that the query
component has no embedded `://`, classify the parsed query pairs into
placeholder markers and genuine parameters, sort both groups, and build
the record (the sorted parameter list becomes the `query` dict). -/
def CallbackURL.from_url (s : PyStr) : Except ParseErr CallbackURL :=
  match urlsplit s with
  | .error e => .error e
  | .ok url =>
    if hasSub (pstr ("://")) url.query then .error .malformedQuery
    else
      let qsl := parseQsl url.query
      let query := sortPairs (qsl.filter (fun e => !isPlaceholderPair e))
      let placeholders := sortStrs ((qsl.filter isPlaceholderPair).map (·.1))
      .ok { scheme := url.scheme
            netloc := url.netloc
            path := url.path
            query := toDict query
            fragment := url.fragment
            placeholders := placeholders }

/-- Model of the `CallbackURL.url` property: emit the query dict items,
then one `key={key}` pair per sorted placeholder, `urlencode` the pairs
with `/`, `{`, `}` kept safe and reassemble the URL. -/
def CallbackURL.url (u : CallbackURL) : PyStr :=
  let qsl1 := u.query
  let qsl2 := (sortStrs u.placeholders).map (fun p => (p, 123 :: p ++ [125]))
  urlunsplit u.scheme u.netloc u.path (urlencode (qsl1 ++ qsl2)) u.fragment

/-- Loop of `bisect.bisect_left`: binary search for the leftmost insertion
point between `lo` and `hi`.  The extra fuel argument makes the
recursion structural; any fuel of at least `hi - lo` gives the loop's
result. -/
def bisectLoop (a : List PyStr) (x : PyStr) : Nat → Nat → Nat → Nat
  | 0, lo, _ => lo
  | fuel + 1, lo, hi =>
    if lo < hi then
      let mid := (lo + hi) / 2
      if strLt (a.getD mid []) x then bisectLoop a x fuel (mid + 1) hi
      else bisectLoop a x fuel lo mid
    else lo

/-- Model of `bisect.bisect_left(a, x)`. -/
def bisectLeft (a : List PyStr) (x : PyStr) : Nat :=
  bisectLoop a x (a.length + 1) 0 a.length

/-- Model of `CallbackURL.add_placeholder`: binary-search the placeholder
list and insert the name at the found index unless it is already there.
The source mutates in place; the model returns the updated record. -/
def CallbackURL.add_placeholder (u : CallbackURL) (p : PyStr) : CallbackURL :=
  let index := bisectLeft u.placeholders p
  if index = u.placeholders.length || u.placeholders.getD index [] ≠ p then
    { u with placeholders := u.placeholders.take index ++ p :: u.placeholders.drop index }
  else u

/-- Trigger identity of a callback: a named trigger (a string of the
`CallbackType` literal) or an integer custom event id. -/
inductive CallbackId
  | trigger (t : PyStr)
  | event (n : Int)
  deriving Repr, DecidableEq

/-- Model of `adjust.api.model.Callback`. -/
structure Callback where
  id : CallbackId
  type : PyStr
  name : PyStr
  urls : List CallbackURL
  custom : Bool
  token : Option PyStr
  deriving Repr, DecidableEq

/-- Python equality of two `Callback` values (pydantic field comparison,
with `urlEq` on the URL lists). -/
def callbackEq (c1 c2 : Callback) : Bool :=
  c1.id = c2.id && c1.type = c2.type && c1.name = c2.name &&
  c1.urls.length = c2.urls.length &&
  (c1.urls.zip c2.urls).all (fun e => urlEq e.1 e.2) &&
  c1.custom = c2.custom && c1.token = c2.token

/-- Model of the `Callback.url` property: `None` when the URL list is
empty, otherwise the space-joined serializations. -/
def Callback.url (c : Callback) : Option PyStr :=
  if c.urls.isEmpty then none
  else some (List.intercalate [32] (c.urls.map CallbackURL.url))

/-- Model of the `Callback.unique_name` property: the trigger id for
standard callbacks, the display name for custom (integer-id) ones. -/
def Callback.unique_name (c : Callback) : PyStr :=
  match c.id with
  | .trigger t => t
  | .event _ => c.name

/-- Model of `adjust.api.model.RawCallback`. -/
structure RawCallback where
  id : CallbackId
  name : PyStr
  url : Option PyStr
  custom : Bool
  token : Option PyStr
  deriving Repr, DecidableEq

/-- Python whitespace bytes recognised by `str.split()`. -/
def isPySpace (b : Nat) : Bool :=
  b = 32 || b = 9 || b = 10 || b = 13 || b = 11 || b = 12

/-- Python `str.split()` with no argument: split on runs of whitespace,
dropping empty fields. -/
def splitWs (s : PyStr) : List PyStr :=
  (splitAllOn 32 (s.map (fun b => if isPySpace b then 32 else b))).filter
    (fun f => !f.isEmpty)

/-- Callback record built by `RawCallback.to_callback` from the given URL
list: the derived `type` is the literal `event` for integer ids and the
trigger id itself otherwise. -/
def RawCallback.mkParsed (r : RawCallback) (urls : List CallbackURL) : Callback :=
  { id := r.id
    type := match r.id with
            | .event _ => pstr ("event")
            | .trigger t => t
    name := r.name
    urls := urls
    custom := r.custom
    token := r.token }

/-- Model of `RawCallback.to_callback`: a null or empty (hence falsy) `url`
field gives no URLs; otherwise the field is whitespace-split and every
part parsed by `CallbackURL.from_url`. -/
def RawCallback.to_callback (r : RawCallback) : Except ParseErr Callback :=
  match r.url with
  | none => .ok (r.mkParsed [])
  | some s =>
    if s.isEmpty then .ok (r.mkParsed [])
    else ((splitWs s).mapM CallbackURL.from_url).map r.mkParsed

/-- Model of `adjust.snapshot.Snapshot = dict[str, list[Callback]]`: the
dict is represented by its item list in insertion order (keys unique for
genuine dicts). -/
abbrev Snapshot := List (PyStr × List Callback)

/-- Keys of a snapshot. -/
def snapKeys (s : Snapshot) : List PyStr := s.map (·.1)

/-- Python `snapshot.get(app_token, [])`. -/
def snapGet (s : Snapshot) (t : PyStr) : List Callback :=
  (s.lookup t).getD []

/-- Stable insertion of a callback before the first entry whose
`unique_name` is not smaller. -/
def insertCallback (x : Callback) : List Callback → List Callback
  | [] => [x]
  | y :: ys => if strLt y.unique_name x.unique_name then y :: insertCallback x ys
               else x :: y :: ys

/-- Stable sort of callbacks by `unique_name`
(`sorted(callbacks, key=lambda c: c.unique_name)`). -/
def sortCallbacks (l : List Callback) : List Callback :=
  l.foldr insertCallback []

/-- Model of `adjust.snapshot.normalize_snapshot`: keep only app entries
with a nonempty callback list and sort each list by `unique_name`. -/
def normalize_snapshot (s : Snapshot) : Snapshot :=
  (s.filter (fun e => !e.2.isEmpty)).map (fun e => (e.1, sortCallbacks e.2))

/-- Key union `snapshot1.keys() | snapshot2.keys()` enumerated as first
snapshot keys followed by the new keys of the second, deduplicated.  The
iteration order of a Python set is unspecified, but the resulting dict
content does not depend on it; this fixes one concrete enumeration. -/
def keyUnion (s1 s2 : Snapshot) : List PyStr :=
  (snapKeys s1 ++ snapKeys s2).foldl (fun acc x => if acc.contains x then acc else acc ++ [x]) []

/-- Model of `adjust.snapshot.snapshot_diff`: for every app token of the
key union, keep the callbacks of the second snapshot that are equal (by
Python `==`) to none of the first snapshot's callbacks for that token,
then normalize. -/
def snapshot_diff (s1 s2 : Snapshot) : Snapshot :=
  normalize_snapshot ((keyUnion s1 s2).map (fun t =>
    (t, (snapGet s2 t).filter (fun c => !(snapGet s1 t).any (callbackEq c)))))

/-- Model of `adjust.snapshot.snapshot_callback_count`. -/
def snapshot_callback_count (s : Snapshot) : Nat :=
  (s.map (fun e => e.2.length)).sum

/-- Model of `adjust.utils.AddCounters`; `apps_seen` is a Python set,
represented as its insertion-ordered list of distinct elements. -/
structure AddCounters where
  apps_seen : List PyStr
  callbacks : Nat
  urls : Nat
  deriving Repr, DecidableEq

/-- Model of the `AddCounters.apps` property. -/
def AddCounters.apps (c : AddCounters) : Nat := c.apps_seen.length

/-- Python `set.add`. -/
def setAdd (s : List PyStr) (x : PyStr) : List PyStr :=
  if s.contains x then s else s ++ [x]

/-- Model of `_STANDARD_TRIGGERS` in `adjust/cli/cli.py`. -/
def _STANDARD_TRIGGERS : List PyStr :=
  [pstr ("install"), pstr ("attribution_update"), pstr ("sk_install"),
   pstr ("reattribution"), pstr ("click"), pstr ("impression"),
   pstr ("rejected_reattribution"), pstr ("rejected_install"),
   pstr ("sk_event")]

/-- Modelled from the spec: `Callback.empty_callback_for_trigger` is
invoked at `adjust/cli/cli.py` line 179 but is defined nowhere under the
repository sources.  The spec says the modify command must "synthesize
an empty callback" for a standard trigger the app lacks, so the model
builds a standard (non-custom) callback for that trigger with no URLs. -/
def Callback.empty_callback_for_trigger (t : PyStr) : Callback :=
  { id := .trigger t, type := t, name := t, urls := [], custom := false, token := none }

/-- Arguments of the `modify` command.  Each `--matching-*` flag carries a
compiled regular expression used only through `re.Pattern.match`, so the
model represents it as an opaque predicate on strings. -/
structure ModifyArgs where
  having_placeholder : List PyStr
  having_app : List PyStr
  having_app_token : List PyStr
  having_domain : List PyStr
  having_path : List PyStr
  matching_placeholder : List (PyStr → Bool)
  matching_app : List (PyStr → Bool)
  matching_domain : List (PyStr → Bool)
  matching_path : List (PyStr → Bool)
  add_placeholder : List PyStr
  add_standard_callbacks : Option CallbackURL
  dry_run : Bool

/-- Arguments with every flag unset. -/
def emptyArgs : ModifyArgs :=
  ⟨[], [], [], [], [], [], [], [], [], [], none, false⟩

/-- URL-level filter chain of `modify`, translated clause by clause from
the `continue` chain at `adjust/cli/cli.py` lines 184 to 195: the URL
passes when no clause fires. -/
def urlPassesCode (args : ModifyArgs) (url : CallbackURL) : Bool :=
  if !args.having_placeholder.isEmpty &&
     !(args.having_placeholder.any (fun ph => url.placeholders.contains ph)) then false
  else if !args.matching_placeholder.isEmpty &&
     !(args.matching_placeholder.any (fun rx => url.placeholders.any rx)) then false
  else if !args.having_domain.isEmpty &&
     !(args.having_domain.any (fun d => d = url.netloc)) then false
  else if !args.matching_domain.isEmpty &&
     !(args.matching_domain.any (fun rx => rx url.netloc)) then false
  else if !args.having_path.isEmpty &&
     !(args.having_path.any (fun p => p = url.path)) then false
  else if !args.matching_path.isEmpty &&
     !(args.matching_path.any (fun rx => rx url.path)) then false
  else true

/-- App-level filter chain of `modify`, translated from the `continue`
chain at `adjust/cli/cli.py` lines 169 to 175.  `apps` is the token to
name mapping built from `api.apps`; a token outside it has name `""`. -/
def appPassesCode (args : ModifyArgs) (apps : List (PyStr × PyStr)) (token : PyStr) : Bool :=
  if !args.having_app_token.isEmpty &&
     !(args.having_app_token.any (fun t => token = t)) then false
  else
    let app_name := (apps.lookup token).getD []
    if !args.having_app.isEmpty && !(args.having_app.any (fun n => app_name = n)) then false
    else if !args.matching_app.isEmpty && !(args.matching_app.any (fun rx => rx app_name)) then false
    else true

/-- Trigger-synthesis loop of `modify` (lines 177 to 180): for each
standard trigger with no callback of that id, append an empty callback. -/
def addStdTriggers (cbs : List Callback) : List Callback :=
  _STANDARD_TRIGGERS.foldl (fun acc t =>
    if acc.any (fun c => c.id = .trigger t) then acc
    else acc ++ [Callback.empty_callback_for_trigger t]) cbs

/-- Mutable state threaded through the `modify` loops: the counters, the
current value of the `add_standard_callbacks` object (its placeholder
list is shared with the "copy" made at line 201, so the adds at line 203
mutate it in place and persist across iterations), and the callbacks
written back to disk. -/
structure ModState where
  counters : AddCounters
  base : Option CallbackURL
  writes : List (PyStr × Callback)
  deriving Repr, DecidableEq

/-- The placeholder-population loop at lines 202 to 203 applied to the
shared `add_standard_callbacks` object: one `add_placeholder` call per
catalog entry with the name `category_placeholder`. -/
def populateStd (catalog : List (PyStr × PyStr)) (b : CallbackURL) : CallbackURL :=
  catalog.foldl (fun u e => u.add_placeholder (e.1 ++ 95 :: e.2)) b

/-- Processing of one callback of a surviving app (`adjust/cli/cli.py`
lines 181 to 211): run the URL filter chain and the add-placeholder
loop over each URL, then the add-standard-callbacks append branch, then
account the callback if it was modified.  The appended URL is the
`add_standard_callbacks` object itself after its shared placeholder
list was populated; the model records its value at append time, which
matches every write and every counter the command produces. -/
def processCallback (args : ModifyArgs) (catalog : List (PyStr × PyStr)) (app_token : PyStr)
    (st : ModState) (c : Callback) : ModState × Callback :=
  let r := c.urls.foldl (fun (acc : List CallbackURL × Nat × Bool) url =>
    if urlPassesCode args url then
      (acc.1 ++ [args.add_placeholder.foldl CallbackURL.add_placeholder url],
       acc.2.1 + args.add_placeholder.length,
       acc.2.2 || !args.add_placeholder.isEmpty)
    else (acc.1 ++ [url], acc.2.1, acc.2.2)) ([], 0, false)
  let urls1 := r.1
  let nUrls := r.2.1
  let modified := r.2.2
  let stdStep :=
    match st.base with
    | some b =>
      if !(urls1.any (fun u => u.netloc ≠ b.netloc)) then
        let b2 := populateStd catalog b
        some b2
      else none
    | none => none
  let c2 : Callback :=
    match stdStep with
    | some b2 => { c with urls := urls1 ++ [b2] }
    | none => { c with urls := urls1 }
  let nUrls := nUrls + (if stdStep.isSome then 1 else 0)
  let modified := modified || stdStep.isSome
  let st := { st with base := match stdStep with | some b2 => some b2 | none => st.base }
  let st :=
    if modified then
      { st with
        counters := { apps_seen := setAdd st.counters.apps_seen app_token,
                      callbacks := st.counters.callbacks + 1,
                      urls := st.counters.urls + nUrls },
        writes := st.writes ++
          (if !args.dry_run && !c2.urls.isEmpty then [(app_token, c2)] else []) }
    else { st with counters := { st.counters with urls := st.counters.urls + nUrls } }
  (st, c2)

/-- Processing of one snapshot entry by `modify`: a failing app is skipped
with nothing visited; a surviving one first gets the standard triggers
synthesized (when requested) and then each callback processed in
order. -/
def processApp (args : ModifyArgs) (catalog : List (PyStr × PyStr))
    (apps : List (PyStr × PyStr)) (st : ModState) (e : PyStr × List Callback) :
    ModState × (PyStr × List Callback) :=
  if !appPassesCode args apps e.1 then (st, e)
  else
    let cbs := if args.add_standard_callbacks.isSome then addStdTriggers e.2 else e.2
    let r := cbs.foldl (fun (acc : ModState × List Callback) c =>
      let pr := processCallback args catalog e.1 acc.1 c
      (pr.1, acc.2 ++ [pr.2])) (st, [])
    (r.1, (e.1, r.2))

/-- Model of the `modify` command loop (`adjust/cli/cli.py` lines 165 to
211): the app-name mapping is consulted only when a name filter was
supplied, and every snapshot entry is processed in order.  Returns the
mutated snapshot together with the final counters, the final state of
the `add_standard_callbacks` object and the written callbacks. -/
def modify (args : ModifyArgs) (apiApps : List (PyStr × PyStr))
    (catalog : List (PyStr × PyStr)) (snapshot : Snapshot) : Snapshot × ModState :=
  let apps := if !args.having_app.isEmpty || !args.matching_app.isEmpty then apiApps else []
  let init : ModState := ⟨⟨[], 0, 0⟩, args.add_standard_callbacks, []⟩
  let r := snapshot.foldl (fun (acc : ModState × Snapshot) e =>
    let pr := processApp args catalog apps acc.1 e
    (pr.1, acc.2 ++ [pr.2])) (init, [])
  (r.2, r.1)

/-- Reporting condition at `adjust/cli/cli.py` line 212: the command
prints the no-match warning exactly when the URL counter is zero. -/
def reportsNoMatch (st : ModState) : Bool := st.counters.urls = 0

/-- Disjointness invariant of the spec: no key of the query dict also
occurs in the placeholder list. -/
def disjointQueryPh (u : CallbackURL) : Bool :=
  u.query.all (fun e => !u.placeholders.contains e.1)

/-- Keys of the placeholder-marker pairs of a parsed query string. -/
def qslMarkerKeys (qsl : List (PyStr × PyStr)) : List PyStr :=
  (qsl.filter isPlaceholderPair).map Prod.fst

/-- Keys of the genuine (non-marker) pairs of a parsed query string. -/
def qslPlainKeys (qsl : List (PyStr × PyStr)) : List PyStr :=
  (qsl.filter (fun e => !isPlaceholderPair e)).map Prod.fst

/-- Well-formedness of a `CallbackURL` coming from a Python dict: the
query keys are distinct. -/
def wfURL (u : CallbackURL) : Bool :=
  (u.query.map Prod.fst).Nodup

/-- Well-formedness of a callback: every URL is well-formed. -/
def wfCallback (c : Callback) : Bool := c.urls.all wfURL

/-- Well-formedness of a snapshot: every callback is well-formed. -/
def wfSnapshot (s : Snapshot) : Bool := s.all (fun e => e.2.all wfCallback)

/-- One filter category of the spec: it passes when no value was supplied,
or when some supplied value matches. -/
def catPasses {α : Type} (vals : List α) (p : α → Bool) : Bool :=
  vals.isEmpty || vals.any p

/-- Declarative URL-level selection of the spec: every supplied category
must pass (conjunction across categories), and a category passes when
any one of its values matches (disjunction within a category). -/
def urlPassesSpec (args : ModifyArgs) (url : CallbackURL) : Bool :=
  catPasses args.having_placeholder (fun ph => url.placeholders.contains ph) &&
  catPasses args.matching_placeholder (fun rx => url.placeholders.any rx) &&
  catPasses args.having_domain (fun d => d = url.netloc) &&
  catPasses args.matching_domain (fun rx => rx url.netloc) &&
  catPasses args.having_path (fun p => p = url.path) &&
  catPasses args.matching_path (fun rx => rx url.path)

/-- Declarative app-level selection of the spec. -/
def appPassesSpec (args : ModifyArgs) (apps : List (PyStr × PyStr)) (token : PyStr) : Bool :=
  catPasses args.having_app_token (fun t => token = t) &&
  catPasses args.having_app (fun n => (apps.lookup token).getD [] = n) &&
  catPasses args.matching_app (fun rx => rx ((apps.lookup token).getD []))

/-! Theorems. -/

lemma urlsplit_error_eq (s : PyStr) (e : ParseErr) (h : urlsplit s = .error e) :
    e = .invalidIPv6 := by
  unfold urlsplit at h
  simp only at h
  split at h
  · exact ((Except.error.injEq _ _).mp h).symm
  · simp at h

/-- C9 counterexample: the input `http://[` contains no question mark at
all (its query component is empty), yet `CallbackURL.from_url` fails,
with the `Invalid IPv6 URL` error of `urlsplit`; so the parse does not
fail only on queries containing `://`. -/
theorem C9_counterexample :
    CallbackURL.from_url (pstr ("http://[")) = .error .invalidIPv6 ∧
    (pstr ("http://[")).contains 63 = false := by decide

/-- C9 amended: on the domain where the two unmodelled stdlib checks are
vacuous — the netloc computed by `urlsplit` is ASCII (every character
below 128) and holds no square bracket — `urlsplit` always succeeds
(in CPython none of its three rejection paths can fire there, and this
model agrees with CPython exactly on that domain), and
`CallbackURL.from_url` fails precisely when the query component of the
split contains the substring `://`; the only error on this domain is
that `AssertionError`.  Off this domain the parse can also fail inside
`urlsplit` before the query assert is reached, as the counterexample
`http://[` shows. -/
theorem C9_amended (s : PyStr)
    (hnb : ∀ b ∈ urlsplitNetloc s, b < 128 ∧ b ≠ 91 ∧ b ≠ 93) :
    ∃ r, urlsplit s = .ok r ∧
      ((∃ e, CallbackURL.from_url s = .error e) ↔
        hasSub (pstr ("://")) r.query = true) ∧
      (∀ e, CallbackURL.from_url s = .error e → e = .malformedQuery) := by
  have hnb2 : ∀ b ∈ (splitNetloc (splitScheme (removeUnsafe s)).2).1,
      b < 128 ∧ b ≠ 91 ∧ b ≠ 93 := hnb
  have h91 : 91 ∉ (splitNetloc (splitScheme (removeUnsafe s)).2).1 :=
    fun hm => (hnb2 91 hm).2.1 rfl
  have h93 : 93 ∉ (splitNetloc (splitScheme (removeUnsafe s)).2).1 :=
    fun hm => (hnb2 93 hm).2.2 rfl
  have hc91 : ((splitNetloc (splitScheme (removeUnsafe s)).2).1).contains 91 = false := by
    simpa using h91
  have hc93 : ((splitNetloc (splitScheme (removeUnsafe s)).2).1).contains 93 = false := by
    simpa using h93
  cases hu : urlsplit s with
  | error e =>
    exfalso
    simp only [urlsplit] at hu
    split at hu
    · rename_i hbr
      rw [hc91, hc93] at hbr
      simp at hbr
    · exact Except.noConfusion hu
  | ok r =>
    refine ⟨r, rfl, ⟨?_, ?_⟩, ?_⟩
    · rintro ⟨e, he⟩
      by_cases hq : hasSub (pstr ("://")) r.query = true
      · exact hq
      · exfalso
        simp [CallbackURL.from_url, hu, hq] at he
    · intro hq
      exact ⟨.malformedQuery, by simp [CallbackURL.from_url, hu, hq]⟩
    · intro e he
      by_cases hq : hasSub (pstr ("://")) r.query = true
      · simp only [CallbackURL.from_url, hu, hq, if_true] at he
        exact (((Except.error.injEq _ _).mp he)).symm
      · exfalso
        simp [CallbackURL.from_url, hu, hq] at he

/-- C9 witness: `https://h?x=a://b` has the ASCII bracket-free netloc `h`,
its split succeeds with query `x=a://b`, and the amended theorem applied
there yields the failure equivalence at a concrete input. -/
theorem C9_witness :
    ∃ r, urlsplit (pstr ("https://h?x=a://b")) = .ok r ∧
      ((∃ e, CallbackURL.from_url (pstr ("https://h?x=a://b")) = .error e) ↔
        hasSub (pstr ("://")) r.query = true) ∧
      (∀ e, CallbackURL.from_url (pstr ("https://h?x=a://b")) = .error e →
        e = .malformedQuery) :=
  C9_amended (pstr ("https://h?x=a://b")) (by decide)

/-- C10: the `url` property of a callback is `None` exactly when its URL
list is empty (in particular it is `None`, not an empty string, for a
callback without URLs); otherwise it is the space-joined canonical
serializations of the URLs in order.  Converting a raw callback record
whose `url` field is null yields a callback with an empty URL list. -/
theorem C10_callback_url (c : Callback) (r : RawCallback) (cb : Callback)
    (hr : r.url = none) (hc : r.to_callback = .ok cb) :
    (c.url = none ↔ c.urls = []) ∧
    (c.urls ≠ [] → c.url = some (List.intercalate [32] (c.urls.map CallbackURL.url))) ∧
    cb.urls = [] := by
  refine ⟨?_, ?_, ?_⟩
  · by_cases h : c.urls = [] <;> simp [Callback.url, h]
  · intro h
    simp [Callback.url, h]
  · simp only [RawCallback.to_callback, hr] at hc
    cases hc
    rfl

/-- C10 witness: the theorem applied to a concrete callback and raw
record. -/
theorem C10_witness :
    (let c : Callback :=
      ⟨.trigger (pstr ("install")), pstr ("install"), pstr ("n"), [], false, none⟩
     let r : RawCallback := ⟨.trigger (pstr ("install")), pstr ("n"), none, false, none⟩
     (c.url = none ↔ c.urls = []) ∧
     (c.urls ≠ [] → c.url = some (List.intercalate [32] (c.urls.map CallbackURL.url))) ∧
     (RawCallback.mkParsed r []).urls = []) := by
  exact C10_callback_url _ ⟨.trigger (pstr ("install")), pstr ("n"), none, false, none⟩ _ rfl rfl

lemma addStdTriggers_general (ts : List PyStr) (cbs : List Callback) (hnd : ts.Nodup) :
    ts.foldl (fun acc t =>
      if acc.any (fun c => c.id = CallbackId.trigger t) then acc
      else acc ++ [Callback.empty_callback_for_trigger t]) cbs =
    cbs ++ (ts.filter (fun t => !cbs.any (fun c => c.id = CallbackId.trigger t))).map
      Callback.empty_callback_for_trigger := by
  induction ts generalizing cbs with
  | nil => simp
  | cons t ts ih =>
    rcases List.nodup_cons.mp hnd with ⟨hmem, hnd2⟩
    by_cases h : cbs.any (fun c => decide (c.id = CallbackId.trigger t)) = true
    · simp only [List.foldl_cons, h, if_pos]
      rw [ih cbs hnd2]
      have : (List.filter (fun t => !cbs.any fun c => decide (c.id = CallbackId.trigger t)) (t :: ts)) =
          List.filter (fun t => !cbs.any fun c => decide (c.id = CallbackId.trigger t)) ts := by
        rw [List.filter_cons]
        simp [h]
      rw [this]
    · simp only [List.foldl_cons, h, if_neg, Bool.not_eq_true]
      rw [ih _ hnd2]
      have hfc : (List.filter
            (fun t2 => !(cbs ++ [Callback.empty_callback_for_trigger t]).any
              fun c => decide (c.id = CallbackId.trigger t2)) ts) =
          List.filter (fun t2 => !cbs.any fun c => decide (c.id = CallbackId.trigger t2)) ts := by
        apply List.filter_congr
        intro t2 ht2
        have hne : t ≠ t2 := fun hh => hmem (hh ▸ ht2)
        simp [List.any_append, Callback.empty_callback_for_trigger, hne]
      rw [hfc]
      have hft : (List.filter (fun t2 => !cbs.any fun c => decide (c.id = CallbackId.trigger t2)) (t :: ts)) =
          t :: List.filter (fun t2 => !cbs.any fun c => decide (c.id = CallbackId.trigger t2)) ts := by
        rw [List.filter_cons]
        simp [h]
      rw [hft]
      simp

/-- C5: the trigger-synthesis loop appends, to the given callback list,
exactly one empty callback (no URLs) for each of the nine standard
triggers that has no callback with that trigger id, in the order of the
standard trigger list, and leaves the existing callbacks untouched. -/
theorem C5_standard_triggers (cbs : List Callback) :
    addStdTriggers cbs =
      cbs ++ (_STANDARD_TRIGGERS.filter
        (fun t => !cbs.any (fun c => c.id = CallbackId.trigger t))).map
        Callback.empty_callback_for_trigger :=
  addStdTriggers_general _ cbs (by decide)

/-- C4: evaluation of the embedded `modify` loop on a two-callback app
with `add-standard-callbacks` and no filters.  The callback whose only
URL is on a host different from the base URL's host gets nothing
appended, while the callback whose URL is already on the base host gets
the base URL appended a second time — the opposite of the specified
condition (the `any` at `adjust/cli/cli.py` line 200 tests `!=` where
the intent is `==`). -/
theorem C4_code_behavior :
    (let base : CallbackURL := ⟨pstr ("https"), pstr ("cb.example.com"), pstr ("/t"), [], [], []⟩
     let u1 : CallbackURL := ⟨pstr ("https"), pstr ("other.com"), pstr ("/x"), [], [], []⟩
     let u2 : CallbackURL := ⟨pstr ("https"), pstr ("cb.example.com"), pstr ("/x"), [], [], []⟩
     let cb1 : Callback := ⟨.trigger (pstr ("install")), pstr ("install"), pstr ("a"), [u1], false, none⟩
     let cb2 : Callback := ⟨.trigger (pstr ("click")), pstr ("click"), pstr ("b"), [u2], false, none⟩
     let args : ModifyArgs := { emptyArgs with add_standard_callbacks := some base }
     let out := (modify args [] [] [(pstr ("t1"), [cb1, cb2])]).1
     let cbs := (out.lookup (pstr ("t1"))).getD []
     (cbs[0]?.map (fun c => c.urls.length) = some 1 ∧
      cbs[1]?.map (fun c => c.urls.length) = some 2)) := by decide

lemma strLt_irrefl (a : PyStr) : strLt a a = false := by
  induction a with
  | nil => rfl
  | cons b bs ih => simp [strLt, ih]

lemma strLt_cons_iff (x y : Nat) (xs ys : PyStr) :
    strLt (x :: xs) (y :: ys) = true ↔ (x < y ∨ (x = y ∧ strLt xs ys = true)) := by
  show (if x < y then true else if y < x then false else strLt xs ys) = true ↔ _
  rcases Nat.lt_trichotomy x y with h | h | h
  · simp [h]
  · subst h; simp [Nat.lt_irrefl]
  · simp [h, Nat.lt_asymm h, Nat.ne_of_gt h]

lemma strLt_trichotomy (a b : PyStr) : strLt a b = true ∨ a = b ∨ strLt b a = true := by
  induction a generalizing b with
  | nil => cases b <;> simp [strLt]
  | cons x xs ih =>
    cases b with
    | nil => simp [strLt]
    | cons y ys =>
      rcases Nat.lt_trichotomy x y with h | h | h
      · exact Or.inl ((strLt_cons_iff _ _ _ _).mpr (Or.inl h))
      · subst h
        rcases ih ys with h2 | h2 | h2
        · exact Or.inl ((strLt_cons_iff _ _ _ _).mpr (Or.inr ⟨rfl, h2⟩))
        · exact Or.inr (Or.inl (by rw [h2]))
        · exact Or.inr (Or.inr ((strLt_cons_iff _ _ _ _).mpr (Or.inr ⟨rfl, h2⟩)))
      · exact Or.inr (Or.inr ((strLt_cons_iff _ _ _ _).mpr (Or.inl h)))

lemma strLt_asymm (a b : PyStr) (h : strLt a b = true) : strLt b a = false := by
  induction a generalizing b with
  | nil =>
    cases b with
    | nil => simp [strLt] at h
    | cons y ys => simp [strLt]
  | cons x xs ih =>
    cases b with
    | nil => simp [strLt] at h
    | cons y ys =>
      rw [strLt_cons_iff] at h
      rw [Bool.eq_false_iff]
      intro h2
      rw [strLt_cons_iff] at h2
      rcases h with h | ⟨he, h⟩ <;> rcases h2 with h2 | ⟨he2, h2⟩
      · omega
      · omega
      · omega
      · rw [ih ys h] at h2; cases h2

lemma strLt_antisymm (a b : PyStr) (h1 : strLt a b = false) (h2 : strLt b a = false) :
    a = b := by
  rcases strLt_trichotomy a b with h | h | h
  · rw [h] at h1; cases h1
  · exact h
  · rw [h] at h2; cases h2

lemma strLt_trans (a b c : PyStr) (h1 : strLt a b = true) (h2 : strLt b c = true) :
    strLt a c = true := by
  induction a generalizing b c with
  | nil =>
    cases c with
    | nil =>
      cases b with
      | nil => exact h1
      | cons y ys => simp [strLt] at h2
    | cons z zs => simp [strLt]
  | cons x xs ih =>
    cases b with
    | nil => simp [strLt] at h1
    | cons y ys =>
      cases c with
      | nil => simp [strLt] at h2
      | cons z zs =>
        rw [strLt_cons_iff] at h1 h2 ⊢
        rcases h1 with h1 | ⟨he1, h1⟩ <;> rcases h2 with h2 | ⟨he2, h2⟩
        · exact Or.inl (Nat.lt_trans h1 h2)
        · exact Or.inl (he2 ▸ h1)
        · exact Or.inl (he1 ▸ h2)
        · exact Or.inr ⟨he1.trans he2, ih ys zs h1 h2⟩

/-- Transitivity of the nonstrict order used in sortedness statements. -/
lemma strGe_trans (a b c : PyStr) (hab : strLt b a = false) (hbc : strLt c b = false) :
    strLt c a = false := by
  have h1 : strLt a b = true ∨ a = b := by
    rcases strLt_trichotomy a b with h | h | h
    · exact Or.inl h
    · exact Or.inr h
    · rw [h] at hab; cases hab
  have h2 : strLt b c = true ∨ b = c := by
    rcases strLt_trichotomy b c with h | h | h
    · exact Or.inl h
    · exact Or.inr h
    · rw [h] at hbc; cases hbc
  rcases h1 with h1 | h1 <;> rcases h2 with h2 | h2
  · exact strLt_asymm _ _ (strLt_trans _ _ _ h1 h2)
  · subst h2; exact strLt_asymm _ _ h1
  · subst h1; exact strLt_asymm _ _ h2
  · subst h1; subst h2; exact strLt_irrefl _

lemma bisectLoop_spec (a : List PyStr) (x : PyStr)
    (hsort : a.Pairwise (fun p q => strLt q p = false)) :
    ∀ (fuel lo hi : Nat), hi ≤ a.length → lo ≤ hi → hi - lo ≤ fuel →
    (∀ j, j < lo → strLt (a.getD j []) x = true) →
    (∀ j, hi ≤ j → j < a.length → strLt (a.getD j []) x = false) →
    lo ≤ bisectLoop a x fuel lo hi ∧ bisectLoop a x fuel lo hi ≤ hi ∧
    (∀ j, j < bisectLoop a x fuel lo hi → strLt (a.getD j []) x = true) ∧
    (∀ j, bisectLoop a x fuel lo hi ≤ j → j < a.length → strLt (a.getD j []) x = false) := by
  have hpair : ∀ (i j : Nat), i < j → j < a.length →
      strLt (a.getD j []) (a.getD i []) = false := by
    intro i j hij hj
    have hi : i < a.length := Nat.lt_trans hij hj
    rw [List.getD_eq_getElem a [] hj, List.getD_eq_getElem a [] hi]
    exact (List.pairwise_iff_getElem.mp hsort) i j hi hj hij
  intro fuel
  induction fuel with
  | zero =>
    intro lo hi hhi hlohi hfuel hinv1 hinv2
    have : lo = hi := by omega
    subst this
    exact ⟨Nat.le_refl _, Nat.le_refl _, hinv1, hinv2⟩
  | succ fuel ih =>
    intro lo hi hhi hlohi hfuel hinv1 hinv2
    by_cases hlt : lo < hi
    · simp only [bisectLoop, hlt, if_pos]
      set mid := (lo + hi) / 2 with hmid
      have hmid1 : lo ≤ mid := by omega
      have hmid2 : mid < hi := by omega
      have hmidlen : mid < a.length := Nat.lt_of_lt_of_le hmid2 hhi
      by_cases hc : strLt (a.getD mid []) x = true
      · simp only [hc, if_pos]
        have hinv1b : ∀ j, j < mid + 1 → strLt (a.getD j []) x = true := by
          intro j hj
          rcases Nat.lt_or_ge j mid with hj2 | hj2
          · rcases strLt_trichotomy (a.getD j []) (a.getD mid []) with h | h | h
            · exact strLt_trans _ _ _ h hc
            · rw [h]; exact hc
            · rw [hpair j mid hj2 hmidlen] at h; cases h
          · have : j = mid := by omega
            subst this; exact hc
        obtain ⟨r1, r2, r3, r4⟩ := ih (mid + 1) hi hhi (by omega) (by omega) hinv1b hinv2
        exact ⟨by omega, r2, r3, r4⟩
      · simp only [hc, if_neg, Bool.not_eq_true]
        have hinv2b : ∀ j, mid ≤ j → j < a.length → strLt (a.getD j []) x = false := by
          intro j hj hjlen
          rcases Nat.lt_or_ge mid j with hj2 | hj2
          · have hle := hpair mid j hj2 hjlen
            rcases strLt_trichotomy (a.getD j []) x with h | h | h
            · exfalso
              rcases strLt_trichotomy (a.getD mid []) (a.getD j []) with h3 | h3 | h3
              · exact hc (strLt_trans _ _ _ h3 h)
              · exact hc (by rw [h3]; exact h)
              · rw [h3] at hle; cases hle
            · rw [h]
              exact strLt_irrefl x
            · exact strLt_asymm _ _ h
          · have : j = mid := by omega
            subst this
            exact eq_false_of_ne_true hc
        obtain ⟨r1, r2, r3, r4⟩ := ih lo mid (Nat.le_of_lt hmidlen) (by omega) (by omega) hinv1 hinv2b
        exact ⟨r1, by omega, r3, r4⟩
    · simp only [bisectLoop, hlt, if_neg]
      have : lo = hi := by omega
      subst this
      exact ⟨Nat.le_refl _, Nat.le_refl _, hinv1, hinv2⟩

lemma bisectLeft_spec (a : List PyStr) (x : PyStr)
    (hsort : a.Pairwise (fun p q => strLt q p = false)) :
    bisectLeft a x ≤ a.length ∧
    (∀ j, j < bisectLeft a x → strLt (a.getD j []) x = true) ∧
    (∀ j, bisectLeft a x ≤ j → j < a.length → strLt (a.getD j []) x = false) := by
  have h := bisectLoop_spec a x hsort (a.length + 1) 0 a.length (Nat.le_refl _)
    (Nat.zero_le _) (by omega) (by intro j hj; omega) (by intro j hj hj2; omega)
  exact ⟨h.2.1, h.2.2.1, h.2.2.2⟩

lemma add_placeholder_fields (u : CallbackURL) (p : PyStr) :
    (u.add_placeholder p).query = u.query ∧
    (u.add_placeholder p).scheme = u.scheme ∧
    (u.add_placeholder p).netloc = u.netloc ∧
    (u.add_placeholder p).path = u.path ∧
    (u.add_placeholder p).fragment = u.fragment := by
  simp only [CallbackURL.add_placeholder]
  split <;> exact ⟨rfl, rfl, rfl, rfl, rfl⟩

lemma add_placeholder_of_mem (u : CallbackURL) (p : PyStr)
    (hs : u.placeholders.Pairwise (fun a b => strLt b a = false))
    (hmem : p ∈ u.placeholders) : u.add_placeholder p = u := by
  obtain ⟨hlen, h3, h4⟩ := bisectLeft_spec u.placeholders p hs
  obtain ⟨k, hk, hkp⟩ := List.mem_iff_getElem.mp hmem
  have hik : bisectLeft u.placeholders p ≤ k := by
    by_contra hcon
    have := h3 k (by omega)
    rw [List.getD_eq_getElem _ [] hk, hkp] at this
    rw [strLt_irrefl] at this
    cases this
  have hilen : bisectLeft u.placeholders p < u.placeholders.length := by omega
  have hgi : u.placeholders.getD (bisectLeft u.placeholders p) [] = p := by
    rcases Nat.lt_or_ge (bisectLeft u.placeholders p) k with hik2 | hik2
    · have hle : strLt (u.placeholders.getD k [])
          (u.placeholders.getD (bisectLeft u.placeholders p) []) = false := by
        rw [List.getD_eq_getElem _ [] hk, List.getD_eq_getElem _ [] hilen]
        exact (List.pairwise_iff_getElem.mp hs) _ _ hilen hk hik2
      rw [List.getD_eq_getElem _ [] hk, hkp] at hle
      have hge := h4 (bisectLeft u.placeholders p) (Nat.le_refl _) hilen
      exact strLt_antisymm _ _ hge hle
    · have : bisectLeft u.placeholders p = k := by omega
      rw [this, List.getD_eq_getElem _ [] hk, hkp]
  simp only [CallbackURL.add_placeholder]
  rw [if_neg]
  simp only [hgi, Bool.or_eq_true, decide_eq_true_eq, not_or]
  exact ⟨by omega, by simp⟩

lemma add_placeholder_of_not_mem (u : CallbackURL) (p : PyStr)
    (hs : u.placeholders.Pairwise (fun a b => strLt b a = false))
    (hmem : p ∉ u.placeholders) :
    (u.add_placeholder p).placeholders =
      u.placeholders.take (bisectLeft u.placeholders p) ++
        p :: u.placeholders.drop (bisectLeft u.placeholders p) := by
  obtain ⟨hlen, h3, h4⟩ := bisectLeft_spec u.placeholders p hs
  simp only [CallbackURL.add_placeholder]
  rw [if_pos]
  rcases Nat.lt_or_ge (bisectLeft u.placeholders p) u.placeholders.length with hl | hl
  · have : u.placeholders.getD (bisectLeft u.placeholders p) [] ≠ p := by
      intro he
      apply hmem
      rw [List.getD_eq_getElem _ [] hl] at he
      rw [← he]
      exact List.getElem_mem _
    simp only [Bool.or_eq_true, decide_eq_true_eq]
    exact Or.inr this
  · have : bisectLeft u.placeholders p = u.placeholders.length := by omega
    simp only [Bool.or_eq_true, decide_eq_true_eq]
    exact Or.inl this

lemma sorted_insert_at_bisect (u : CallbackURL) (p : PyStr)
    (hs : u.placeholders.Pairwise (fun a b => strLt b a = false)) :
    (u.placeholders.take (bisectLeft u.placeholders p) ++
      p :: u.placeholders.drop (bisectLeft u.placeholders p)).Pairwise
      (fun a b => strLt b a = false) := by
  obtain ⟨hlen, h3, h4⟩ := bisectLeft_spec u.placeholders p hs
  set l := u.placeholders with hldef
  set i := bisectLeft u.placeholders p with hidef
  have hmem_take : ∀ x ∈ l.take i, strLt x p = true := by
    intro x hx
    obtain ⟨j, hj, hjx⟩ := List.mem_iff_getElem.mp hx
    have hj2 : j < i := by
      have := hj
      rw [List.length_take] at this
      omega
    have hjl : j < l.length := by
      have := hj
      rw [List.length_take] at this
      omega
    rw [List.getElem_take] at hjx
    have := h3 j hj2
    rw [List.getD_eq_getElem _ [] hjl, hjx] at this
    exact this
  have hmem_drop : ∀ x ∈ l.drop i, strLt x p = false := by
    intro x hx
    obtain ⟨j, hj, hjx⟩ := List.mem_iff_getElem.mp hx
    have hjl : i + j < l.length := by
      have := hj
      rw [List.length_drop] at this
      omega
    rw [List.getElem_drop] at hjx
    have := h4 (i + j) (by omega) hjl
    rw [List.getD_eq_getElem _ [] hjl, hjx] at this
    exact this
  apply List.pairwise_append.mpr
  refine ⟨hs.sublist (List.take_sublist _ _), ?_, ?_⟩
  · apply List.Pairwise.cons
    · intro y hy
      exact hmem_drop y hy
    · exact hs.sublist (List.drop_sublist _ _)
  · intro x hx y hy
    rcases List.mem_cons.mp hy with hyp | hyd
    · subst hyp
      exact strLt_asymm _ _ (hmem_take x hx)
    · have hxp := hmem_take x hx
      have hyp := hmem_drop y hyd
      rcases strLt_trichotomy p y with h | h | h
      · exact strLt_asymm _ _ (strLt_trans _ _ _ hxp h)
      · subst h
        exact strLt_asymm _ _ hxp
      · rw [h] at hyp; cases hyp

/-- C6: with a sorted placeholder list (the invariant every
`CallbackURL` maintains), `add_placeholder` is an idempotent sorted
insertion: applying it twice gives the same record as once, the result
stays sorted and contains the name, a name already present makes the
call a no-op, and the query (as well as scheme, netloc, path and
fragment) is never touched. -/
theorem C6_add_placeholder (u : CallbackURL) (p : PyStr)
    (hs : u.placeholders.Pairwise (fun a b => strLt b a = false)) :
    (u.add_placeholder p).add_placeholder p = u.add_placeholder p ∧
    (u.add_placeholder p).placeholders.Pairwise (fun a b => strLt b a = false) ∧
    (p ∈ u.placeholders → u.add_placeholder p = u) ∧
    p ∈ (u.add_placeholder p).placeholders ∧
    (u.add_placeholder p).query = u.query ∧
    (u.add_placeholder p).scheme = u.scheme ∧
    (u.add_placeholder p).netloc = u.netloc ∧
    (u.add_placeholder p).path = u.path ∧
    (u.add_placeholder p).fragment = u.fragment := by
  have hsorted : (u.add_placeholder p).placeholders.Pairwise (fun a b => strLt b a = false) := by
    by_cases hmem : p ∈ u.placeholders
    · rw [add_placeholder_of_mem u p hs hmem]
      exact hs
    · rw [add_placeholder_of_not_mem u p hs hmem]
      exact sorted_insert_at_bisect u p hs
  have hmem2 : p ∈ (u.add_placeholder p).placeholders := by
    by_cases hmem : p ∈ u.placeholders
    · rw [add_placeholder_of_mem u p hs hmem]
      exact hmem
    · rw [add_placeholder_of_not_mem u p hs hmem]
      simp
  obtain ⟨hq, h1, h2, h5, h6⟩ := add_placeholder_fields u p
  exact ⟨add_placeholder_of_mem _ p hsorted hmem2, hsorted,
    add_placeholder_of_mem u p hs, hmem2, hq, h1, h2, h5, h6⟩

/-- C6 witness: the theorem applied to a concrete URL and name. -/
theorem C6_witness :
    (let u : CallbackURL :=
      ⟨pstr ("https"), pstr ("h"), pstr ("/p"), [], [], [pstr ("aa"), pstr ("cc")]⟩
     let p : PyStr := pstr ("bb")
     (u.add_placeholder p).add_placeholder p = u.add_placeholder p ∧
     (u.add_placeholder p).placeholders.Pairwise (fun a b => strLt b a = false) ∧
     (p ∈ u.placeholders → u.add_placeholder p = u) ∧
     p ∈ (u.add_placeholder p).placeholders ∧
     (u.add_placeholder p).query = u.query ∧
     (u.add_placeholder p).scheme = u.scheme ∧
     (u.add_placeholder p).netloc = u.netloc ∧
     (u.add_placeholder p).path = u.path ∧
     (u.add_placeholder p).fragment = u.fragment) := by
  exact C6_add_placeholder _ _ (by decide)

lemma mem_insertStr (x a : PyStr) (l : List PyStr) :
    a ∈ insertStr x l ↔ a = x ∨ a ∈ l := by
  induction l with
  | nil => simp [insertStr]
  | cons y ys ih =>
    simp only [insertStr]
    split
    · rw [List.mem_cons, ih, List.mem_cons]
      tauto
    · rw [List.mem_cons, List.mem_cons]

lemma mem_sortStrs (a : PyStr) (l : List PyStr) : a ∈ sortStrs l ↔ a ∈ l := by
  induction l with
  | nil => simp [sortStrs]
  | cons y ys ih =>
    show a ∈ insertStr y (sortStrs ys) ↔ _
    rw [mem_insertStr, ih, List.mem_cons]

lemma mem_insertAssoc (x e : PyStr × PyStr) (l : List (PyStr × PyStr)) :
    e ∈ insertAssoc x l ↔ e = x ∨ e ∈ l := by
  induction l with
  | nil => simp [insertAssoc]
  | cons y ys ih =>
    simp only [insertAssoc]
    split
    · rw [List.mem_cons, ih, List.mem_cons]
      tauto
    · rw [List.mem_cons, List.mem_cons]

lemma mem_sortPairs (e : PyStr × PyStr) (l : List (PyStr × PyStr)) :
    e ∈ sortPairs l ↔ e ∈ l := by
  induction l with
  | nil => simp [sortPairs]
  | cons y ys ih =>
    show e ∈ insertAssoc y (sortPairs ys) ↔ _
    rw [mem_insertAssoc, ih, List.mem_cons]

lemma mem_dictInsert (d : List (PyStr × PyStr)) (k v : PyStr) (e : PyStr × PyStr)
    (h : e ∈ dictInsert d k v) : e ∈ d ∨ e = (k, v) := by
  simp only [dictInsert] at h
  split at h
  · obtain ⟨x, hx, hxe⟩ := List.mem_map.mp h
    split at hxe
    · exact Or.inr hxe.symm
    · exact Or.inl (hxe ▸ hx)
  · rcases List.mem_append.mp h with h | h
    · exact Or.inl h
    · exact Or.inr (List.mem_singleton.mp h)

lemma mem_toDict (l : List (PyStr × PyStr)) (e : PyStr × PyStr)
    (h : e ∈ toDict l) : e ∈ l := by
  suffices haux : ∀ (l acc : List (PyStr × PyStr)),
      e ∈ l.foldl (fun d p => dictInsert d p.1 p.2) acc → e ∈ acc ∨ e ∈ l by
    rcases haux l [] h with h2 | h2
    · cases h2
    · exact h2
  intro l
  induction l with
  | nil => intro acc h2; exact Or.inl h2
  | cons p ps ih =>
    intro acc h2
    rcases ih (dictInsert acc p.1 p.2) h2 with h3 | h3
    · rcases mem_dictInsert _ _ _ _ h3 with h4 | h4
      · exact Or.inl h4
      · exact Or.inr (by rw [h4]; exact List.mem_cons_self _ _)
    · exact Or.inr (List.mem_cons_of_mem _ h3)

lemma add_placeholder_mem_sub (u : CallbackURL) (p x : PyStr)
    (h : x ∈ (u.add_placeholder p).placeholders) : x = p ∨ x ∈ u.placeholders := by
  simp only [CallbackURL.add_placeholder] at h
  split at h
  · simp only [List.mem_append, List.mem_cons] at h
    rcases h with h | h | h
    · exact Or.inr (List.mem_of_mem_take h)
    · exact Or.inl h
    · exact Or.inr (List.mem_of_mem_drop h)
  · exact Or.inr h

lemma from_url_ok_parts (s : PyStr) (r : SplitResult) (u : CallbackURL)
    (hr : urlsplit s = .ok r) (hu : CallbackURL.from_url s = .ok u) :
    hasSub (pstr ("://")) r.query = false ∧
    u = ⟨r.scheme, r.netloc, r.path,
         toDict (sortPairs ((parseQsl r.query).filter (fun e => !isPlaceholderPair e))),
         r.fragment,
         sortStrs (((parseQsl r.query).filter isPlaceholderPair).map (·.1))⟩ := by
  unfold CallbackURL.from_url at hu
  rw [hr] at hu
  simp only at hu
  by_cases hq : hasSub (pstr ("://")) r.query = true
  · rw [if_pos hq] at hu; cases hu
  · rw [if_neg hq] at hu
    refine ⟨eq_false_of_ne_true hq, ?_⟩
    exact ((Except.ok.injEq _ _).mp hu).symm

/-- C2 counterexample: parsing `https://h?a=1&a={a}` yields a
`CallbackURL` whose query has key `a` and whose placeholder list also
contains `a`, violating the disjointness invariant; and a bare
`add_placeholder` call with a name already present as a query key also
violates it. -/
theorem C2_counterexample :
    ((CallbackURL.from_url (pstr ("https://h?a=1&a=\x7ba\x7d"))).map disjointQueryPh =
      Except.ok false) ∧
    disjointQueryPh
      (CallbackURL.add_placeholder
        ⟨pstr ("https"), pstr ("h"), [], [(pstr ("a"), pstr ("1"))], [], []⟩
        (pstr ("a"))) = false := by decide

/-- C2 amended: `from_url` establishes the disjointness invariant for
every input whose parsed query has no key occurring both as a
placeholder marker and as a genuine parameter; and `add_placeholder`
preserves the invariant whenever the added name is not one of the query
keys. -/
theorem C2_amended :
    (∀ (s : PyStr) (r : SplitResult) (u : CallbackURL),
      urlsplit s = .ok r →
      CallbackURL.from_url s = .ok u →
      (qslPlainKeys (parseQsl r.query)).all
        (fun k => !(qslMarkerKeys (parseQsl r.query)).contains k) = true →
      disjointQueryPh u = true) ∧
    (∀ (u : CallbackURL) (p : PyStr),
      disjointQueryPh u = true →
      (u.query.map Prod.fst).contains p = false →
      disjointQueryPh (u.add_placeholder p) = true) := by
  constructor
  · intro s r u hr hu hdisj
    rw [(from_url_ok_parts s r u hr hu).2]
    simp only [disjointQueryPh, List.all_eq_true]
    intro e he
    have he2 : e ∈ (parseQsl r.query).filter (fun e => !isPlaceholderPair e) :=
      (mem_sortPairs _ _).mp (mem_toDict _ _ he)
    simp only [Bool.not_eq_true']
    rw [Bool.eq_false_iff]
    intro hcon
    have hmk : e.1 ∈ qslMarkerKeys (parseQsl r.query) := by
      have h5 : e.1 ∈ sortStrs (((parseQsl r.query).filter isPlaceholderPair).map (·.1)) := by
        simpa [List.contains, List.elem_iff] using hcon
      exact (mem_sortStrs _ _).mp h5
    have hpk : e.1 ∈ qslPlainKeys (parseQsl r.query) :=
      List.mem_map.mpr ⟨e, he2, rfl⟩
    have := List.all_eq_true.mp hdisj _ hpk
    simp only [Bool.not_eq_true'] at this
    rw [List.contains, List.elem_eq_mem, decide_eq_false_iff_not] at this
    exact this hmk
  · intro u p hdisj hnk
    simp only [disjointQueryPh, List.all_eq_true] at hdisj ⊢
    intro e he
    have hq : (u.add_placeholder p).query = u.query := (add_placeholder_fields u p).1
    rw [hq] at he
    simp only [Bool.not_eq_true']
    rw [Bool.eq_false_iff]
    intro hcon
    have hx : e.1 ∈ (u.add_placeholder p).placeholders := by
      simpa [List.contains, List.elem_iff] using hcon
    rcases add_placeholder_mem_sub u p e.1 hx with h | h
    · rw [List.contains, List.elem_eq_mem, decide_eq_false_iff_not] at hnk
      exact hnk (List.mem_map.mpr ⟨e, he, h⟩)
    · have := hdisj e he
      simp only [Bool.not_eq_true'] at this
      rw [List.contains, List.elem_eq_mem, decide_eq_false_iff_not] at this
      exact this h

/-- C2 witness: both halves of the amended theorem applied at concrete
inputs. -/
theorem C2_witness :
    disjointQueryPh
      ⟨pstr ("https"), pstr ("h"), [], [(pstr ("b"), pstr ("1"))], [],
        [pstr ("a")]⟩ = true ∧
    disjointQueryPh
      (CallbackURL.add_placeholder
        ⟨pstr ("https"), pstr ("h"), [], [(pstr ("b"), pstr ("1"))], [], []⟩
        (pstr ("a"))) = true := by
  constructor
  · exact C2_amended.1 (pstr ("https://h?a=\x7ba\x7d&b=1"))
      ⟨pstr ("https"), pstr ("h"), [], pstr ("a=\x7ba\x7d&b=1"), []⟩ _
      (by decide) (by decide) (by decide)
  · exact C2_amended.2 _ (pstr ("a")) (by decide) (by decide)

lemma lookup_eq_none_of_not_mem_keys {α : Type} (l : List (PyStr × α)) (t : PyStr)
    (h : t ∉ l.map Prod.fst) : l.lookup t = none := by
  induction l with
  | nil => rfl
  | cons e es ih =>
    simp only [List.map_cons, List.mem_cons, not_or] at h
    have hbe : (t == e.1) = false := by simp [h.1]
    rw [List.lookup_cons, hbe]
    exact ih h.2

lemma lookup_mem {α : Type} (l : List (PyStr × α)) (t : PyStr) (v : α)
    (h : l.lookup t = some v) : (t, v) ∈ l := by
  induction l with
  | nil => cases h
  | cons e es ih =>
    rw [List.lookup_cons] at h
    by_cases he : t = e.1
    · have hbe : (t == e.1) = true := by simp [he]
      rw [hbe] at h
      have h2 : some e.2 = some v := h
      have h3 : e.2 = v := by injection h2
      apply List.mem_cons.mpr
      left
      rw [he, ← h3]
    · have hbe : (t == e.1) = false := by simp [he]
      rw [hbe] at h
      exact List.mem_cons_of_mem _ (ih h)

lemma keys_nodup_dedup_fold (l : List PyStr) :
    (l.foldl (fun acc x => if acc.contains x then acc else acc ++ [x]) []).Nodup := by
  suffices haux : ∀ (l acc : List PyStr), acc.Nodup →
      (l.foldl (fun acc x => if acc.contains x then acc else acc ++ [x]) acc).Nodup by
    exact haux l [] List.nodup_nil
  intro l
  induction l with
  | nil => intro acc h; exact h
  | cons x xs ih =>
    intro acc h
    simp only [List.foldl_cons]
    by_cases hc : acc.contains x = true
    · rw [if_pos hc]; exact ih acc h
    · rw [if_neg hc]
      apply ih
      rw [List.nodup_append]
      refine ⟨h, List.nodup_singleton x, ?_⟩
      intro a ha hx
      rw [List.mem_singleton] at hx
      subst hx
      simp only [List.contains, List.elem_eq_mem, decide_eq_true_eq] at hc
      exact hc ha

lemma keyUnion_nodup (s1 s2 : Snapshot) : (keyUnion s1 s2).Nodup :=
  keys_nodup_dedup_fold _

lemma dictEq_refl (d : List (PyStr × PyStr)) (h : (d.map Prod.fst).Nodup) :
    dictEq d d = true := by
  have hlk : ∀ e ∈ d, d.lookup e.1 = some e.2 := by
    induction d with
    | nil => intro e he; cases he
    | cons p ps ih =>
      simp only [List.map_cons, List.nodup_cons] at h
      intro e he
      rcases List.mem_cons.mp he with he2 | he2
      · subst he2
        have hbe : (e.1 == e.1) = true := by simp
        rw [List.lookup_cons, hbe]
      · have hne : e.1 ≠ p.1 := by
          intro hcon
          exact h.1 (hcon ▸ List.mem_map.mpr ⟨e, he2, rfl⟩)
        have hbe : (e.1 == p.1) = false := by simp [hne]
        rw [List.lookup_cons, hbe]
        exact ih h.2 e he2
  simp only [dictEq, Bool.and_eq_true, decide_eq_true_eq, List.all_eq_true]
  refine ⟨⟨by simp, ?_⟩, ?_⟩ <;>
    · intro e he
      simp [hlk e he]

lemma urlEq_refl (u : CallbackURL) (h : wfURL u = true) : urlEq u u = true := by
  have hn : (u.query.map Prod.fst).Nodup := by
    simp only [wfURL, decide_eq_true_eq] at h
    exact h
  simp [urlEq, dictEq_refl u.query hn]

lemma zip_self_mem {α : Type} (l : List α) (e : α × α) (h : e ∈ l.zip l) :
    e.1 = e.2 ∧ e.1 ∈ l := by
  induction l with
  | nil => cases h
  | cons x xs ih =>
    rw [List.zip_cons_cons] at h
    rcases List.mem_cons.mp h with h2 | h2
    · subst h2
      exact ⟨rfl, List.mem_cons_self _ _⟩
    · obtain ⟨h3, h4⟩ := ih h2
      exact ⟨h3, List.mem_cons_of_mem _ h4⟩

lemma callbackEq_refl (c : Callback) (h : wfCallback c = true) : callbackEq c c = true := by
  have hz : (c.urls.zip c.urls).all (fun e => urlEq e.1 e.2) = true := by
    rw [List.all_eq_true]
    intro e he
    obtain ⟨he1, he2⟩ := zip_self_mem c.urls e he
    rw [← he1]
    exact urlEq_refl e.1 (List.all_eq_true.mp h e.1 he2)
  simp [callbackEq, hz]

lemma normalize_cons_empty (k : PyStr) (v : List Callback) (rest : Snapshot)
    (hv : v = []) :
    normalize_snapshot ((k, v) :: rest) = normalize_snapshot rest := by
  simp [normalize_snapshot, List.filter_cons, hv]

lemma normalize_cons_nonempty (k : PyStr) (v : List Callback) (rest : Snapshot)
    (hv : v ≠ []) :
    normalize_snapshot ((k, v) :: rest) = (k, sortCallbacks v) :: normalize_snapshot rest := by
  have hb : v.isEmpty = false := by
    cases v with
    | nil => cases hv rfl
    | cons a l => rfl
  simp [normalize_snapshot, List.filter_cons, hb]

lemma normalize_lookup (ks : List PyStr) (g : PyStr → List Callback) (t : PyStr)
    (hnd : ks.Nodup) :
    (normalize_snapshot (ks.map (fun k => (k, g k)))).lookup t =
      if t ∈ ks ∧ g t ≠ [] then some (sortCallbacks (g t)) else none := by
  induction ks with
  | nil => simp [normalize_snapshot]
  | cons k ks ih =>
    rcases List.nodup_cons.mp hnd with ⟨hk, hnd2⟩
    rw [List.map_cons]
    by_cases hg : g k = []
    · rw [normalize_cons_empty _ _ _ hg, ih hnd2]
      by_cases ht : t = k
      · subst ht
        rw [if_neg (fun hc => hc.2 hg), if_neg (fun hc => hc.2 hg)]
      · by_cases ht2 : t ∈ ks ∧ g t ≠ []
        · rw [if_pos ht2, if_pos ⟨List.mem_cons_of_mem _ ht2.1, ht2.2⟩]
        · rw [if_neg ht2,
            if_neg (fun hc => ht2 ⟨(List.mem_cons.mp hc.1).resolve_left ht, hc.2⟩)]
    · rw [normalize_cons_nonempty _ _ _ hg]
      by_cases ht : t = k
      · subst ht
        rw [List.lookup_cons]
        have hbe : (t == t) = true := by simp
        rw [hbe, if_pos ⟨List.mem_cons_self _ _, hg⟩]
      · rw [List.lookup_cons]
        have hbe : (t == k) = false := by simp [ht]
        rw [hbe, ih hnd2]
        by_cases ht2 : t ∈ ks ∧ g t ≠ []
        · rw [if_pos ht2, if_pos ⟨List.mem_cons_of_mem _ ht2.1, ht2.2⟩]
        · rw [if_neg ht2,
            if_neg (fun hc => ht2 ⟨(List.mem_cons.mp hc.1).resolve_left ht, hc.2⟩)]

/-- C3: for any two snapshots, the diff maps every token of the key union
to the callbacks of the target list that equal (by Python structural
equality) no callback of the base list for that token, in target order,
normalized (sorted, with empty entries dropped); tokens outside the key
union are absent; and the diff of any well-formed snapshot with itself
is the empty snapshot. -/
theorem C3_snapshot_diff (s1 s2 : Snapshot) (S : Snapshot) (hS : wfSnapshot S = true) :
    (∀ t, t ∈ keyUnion s1 s2 →
      (snapshot_diff s1 s2).lookup t =
        (if ((snapGet s2 t).filter (fun c => !(snapGet s1 t).any (callbackEq c))) = []
         then none
         else some (sortCallbacks
           ((snapGet s2 t).filter (fun c => !(snapGet s1 t).any (callbackEq c)))))) ∧
    (∀ t, t ∉ keyUnion s1 s2 → (snapshot_diff s1 s2).lookup t = none) ∧
    snapshot_diff S S = [] := by
  refine ⟨?_, ?_, ?_⟩
  · intro t ht
    rw [snapshot_diff, normalize_lookup _ _ _ (keyUnion_nodup s1 s2)]
    by_cases hg : ((snapGet s2 t).filter (fun c => !(snapGet s1 t).any (callbackEq c))) = []
    · rw [if_neg (by simp [hg]), if_pos hg]
    · rw [if_pos ⟨ht, hg⟩, if_neg hg]
  · intro t ht
    rw [snapshot_diff, normalize_lookup _ _ _ (keyUnion_nodup s1 s2)]
    rw [if_neg (by intro hcon; exact ht hcon.1)]
  · have hfilt : ∀ t, (snapGet S t).filter (fun c => !(snapGet S t).any (callbackEq c)) = [] := by
      intro t
      rw [List.filter_eq_nil_iff]
      intro c hc
      simp only [Bool.not_eq_true', Bool.not_eq_false]
      apply List.any_eq_true.mpr
      refine ⟨c, hc, ?_⟩
      apply callbackEq_refl
      cases hlk : S.lookup t with
      | none => rw [snapGet, hlk] at hc; cases hc
      | some l =>
        rw [snapGet, hlk] at hc
        have hmem := lookup_mem S t l hlk
        have := List.all_eq_true.mp hS _ hmem
        exact List.all_eq_true.mp this c hc
    rw [snapshot_diff]
    have : (keyUnion S S).map
        (fun t => (t, (snapGet S t).filter (fun c => !(snapGet S t).any (callbackEq c)))) =
        (keyUnion S S).map (fun t => (t, ([] : List Callback))) := by
      apply List.map_congr_left
      intro t _
      rw [hfilt t]
    rw [this]
    rw [normalize_snapshot]
    rw [List.filter_eq_nil_iff.mpr (by
      intro e he
      obtain ⟨t, _, het⟩ := List.mem_map.mp he
      rw [← het]
      simp)]
    rfl

/-- C3 witness: the theorem applied to concrete snapshots, evaluating the
diff characterization at a present and an absent token. -/
theorem C3_witness :
    (let cb : Callback :=
      ⟨.trigger (pstr ("install")), pstr ("install"), pstr ("n"),
        [⟨pstr ("https"), pstr ("h"), [], [], [], [pstr ("a")]⟩], false, none⟩
     let s1 : Snapshot := [(pstr ("t1"), [cb])]
     let s2 : Snapshot := [(pstr ("t2"), [cb])]
     (snapshot_diff s1 s2).lookup (pstr ("t2")) =
       (if ((snapGet s2 (pstr ("t2"))).filter
            (fun c => !(snapGet s1 (pstr ("t2"))).any (callbackEq c))) = []
        then none
        else some (sortCallbacks
          ((snapGet s2 (pstr ("t2"))).filter
            (fun c => !(snapGet s1 (pstr ("t2"))).any (callbackEq c))))) ∧
     (snapshot_diff s1 s2).lookup (pstr ("t3")) = none ∧
     snapshot_diff s1 s1 = []) := by
  refine ⟨?_, ?_, ?_⟩
  · exact (C3_snapshot_diff _ _ [] (by decide)).1 (pstr ("t2")) (by decide)
  · exact (C3_snapshot_diff _ _ [] (by decide)).2.1 (pstr ("t3")) (by decide)
  · exact (C3_snapshot_diff [] [] _ (by decide)).2.2

lemma chain_step (e a : Bool) (r : Bool) :
    (if !e && !a then false else r) = ((e || a) && r) := by
  cases e <;> cases a <;> simp

lemma url_passes_eq (args : ModifyArgs) (url : CallbackURL) :
    urlPassesCode args url = urlPassesSpec args url := by
  simp only [urlPassesCode, urlPassesSpec, catPasses, chain_step]
  simp [Bool.and_assoc]

lemma app_passes_eq (args : ModifyArgs) (apps : List (PyStr × PyStr)) (token : PyStr) :
    appPassesCode args apps token = appPassesSpec args apps token := by
  simp only [appPassesCode, appPassesSpec, catPasses, chain_step]
  simp [Bool.and_assoc]

lemma url_fold_spec (args : ModifyArgs) (l : List CallbackURL) (acc : List CallbackURL)
    (n : Nat) (m : Bool) :
    l.foldl (fun (acc : List CallbackURL × Nat × Bool) url =>
      if urlPassesCode args url then
        (acc.1 ++ [args.add_placeholder.foldl CallbackURL.add_placeholder url],
         acc.2.1 + args.add_placeholder.length,
         acc.2.2 || !args.add_placeholder.isEmpty)
      else (acc.1 ++ [url], acc.2.1, acc.2.2)) (acc, n, m) =
    (acc ++ l.map (fun u => if urlPassesCode args u then
        args.add_placeholder.foldl CallbackURL.add_placeholder u else u),
     n + args.add_placeholder.length * l.countP (urlPassesCode args),
     m || (!args.add_placeholder.isEmpty && l.any (urlPassesCode args))) := by
  induction l generalizing acc n m with
  | nil => simp
  | cons url rest ih =>
    simp only [List.foldl_cons]
    by_cases hp : urlPassesCode args url = true
    · rw [if_pos hp, ih, Prod.mk.injEq, Prod.mk.injEq]
      refine ⟨?_, ?_, ?_⟩
      · rw [List.map_cons, if_pos hp]
        simp
      · rw [List.countP_cons, hp]
        simp only [if_true]
        ring
      · rw [List.any_cons, hp]
        cases m <;> cases hx : (!args.add_placeholder.isEmpty) <;>
          cases hb : rest.any (urlPassesCode args) <;> simp
    · rw [if_neg hp, ih, Prod.mk.injEq, Prod.mk.injEq]
      have hp2 : urlPassesCode args url = false := eq_false_of_ne_true hp
      refine ⟨?_, ?_, ?_⟩
      · rw [List.map_cons, if_neg hp]
        simp
      · rw [List.countP_cons, hp2]
        simp
      · rw [List.any_cons, hp2]
        simp

lemma processCallback_spec (args : ModifyArgs) (catalog : List (PyStr × PyStr))
    (tok : PyStr) (st : ModState) (c : Callback) (hbase : st.base = none) :
    processCallback args catalog tok st c =
      (⟨⟨(if !args.add_placeholder.isEmpty && c.urls.any (urlPassesCode args) then
            setAdd st.counters.apps_seen tok else st.counters.apps_seen),
         st.counters.callbacks +
           (if !args.add_placeholder.isEmpty && c.urls.any (urlPassesCode args) then 1 else 0),
         st.counters.urls + args.add_placeholder.length * c.urls.countP (urlPassesCode args)⟩,
        none,
        st.writes ++
          (if (!args.add_placeholder.isEmpty && c.urls.any (urlPassesCode args)) &&
              (!args.dry_run && !(c.urls.map (fun u => if urlPassesCode args u then
                args.add_placeholder.foldl CallbackURL.add_placeholder u else u)).isEmpty) then
            [(tok, { c with urls := c.urls.map (fun u => if urlPassesCode args u then
              args.add_placeholder.foldl CallbackURL.add_placeholder u else u) })]
           else [])⟩,
       { c with urls := c.urls.map (fun u => if urlPassesCode args u then
           args.add_placeholder.foldl CallbackURL.add_placeholder u else u) }) := by
  simp only [processCallback, url_fold_spec, hbase]
  by_cases hm : (!args.add_placeholder.isEmpty && c.urls.any (urlPassesCode args)) = true
  · simp [hm]
  · have hm2 := eq_false_of_ne_true hm
    simp [hm2]

/-- C7: the filter semantics of `modify`.  The URL-level `continue` chain
of the code equals the declarative form: every supplied category must
pass (AND across categories) and a category passes when any of its
values matches (OR within a category); likewise for the app-level
chain.  An app failing the app-token or app-name categories is returned
untouched with unchanged state (none of its callbacks are visited), and
within a surviving app the add-placeholder mutation is applied exactly
to the URLs passing all URL-level categories, the others being returned
unchanged. -/
theorem C7_filter_semantics :
    (∀ (args : ModifyArgs) (url : CallbackURL),
      urlPassesCode args url = urlPassesSpec args url) ∧
    (∀ (args : ModifyArgs) (apps : List (PyStr × PyStr)) (token : PyStr),
      appPassesCode args apps token = appPassesSpec args apps token) ∧
    (∀ (args : ModifyArgs) (catalog apps : List (PyStr × PyStr)) (st : ModState)
      (e : PyStr × List Callback),
      appPassesCode args apps e.1 = false → processApp args catalog apps st e = (st, e)) ∧
    (∀ (args : ModifyArgs) (catalog : List (PyStr × PyStr)) (tok : PyStr)
      (st : ModState) (c : Callback), st.base = none →
      ((processCallback args catalog tok st c).2).urls =
        c.urls.map (fun u => if urlPassesSpec args u then
          args.add_placeholder.foldl CallbackURL.add_placeholder u else u)) := by
  refine ⟨url_passes_eq, app_passes_eq, ?_, ?_⟩
  · intro args catalog apps st e h
    simp [processApp, h]
  · intro args catalog tok st c hbase
    rw [processCallback_spec args catalog tok st c hbase]
    apply List.map_congr_left
    intro u _
    rw [url_passes_eq]

/-- C7 witness: the skip conjunct and the mutation conjunct applied at a
concrete failing app and a concrete callback. -/
theorem C7_witness :
    (let args : ModifyArgs := { emptyArgs with having_app_token := [pstr ("t2")] }
     let cb : Callback :=
       ⟨.trigger (pstr ("install")), pstr ("install"), pstr ("n"),
         [⟨pstr ("https"), pstr ("h"), [], [], [], []⟩], false, none⟩
     let st : ModState := ⟨⟨[], 0, 0⟩, none, []⟩
     processApp args [] [] st (pstr ("t1"), [cb]) = (st, (pstr ("t1"), [cb])) ∧
     ((processCallback args [] (pstr ("t1")) st cb).2).urls =
       cb.urls.map (fun u => if urlPassesSpec args u then
         args.add_placeholder.foldl CallbackURL.add_placeholder u else u)) := by
  constructor
  · exact C7_filter_semantics.2.2.1 _ _ _ _ _ (by decide)
  · exact C7_filter_semantics.2.2.2 _ _ _ _ _ rfl

/-- C8 counterexample: one app with one callback whose only URL already
has placeholder `x`; running modify with `--add-placeholder x` leaves
the snapshot unchanged (every `add_placeholder` call is a no-op), yet
the URL counter is 1, the callback is counted as modified, the callback
is written back, and the no-match message is not reported. -/
theorem C8_counterexample :
    (let u : CallbackURL := ⟨pstr ("https"), pstr ("h"), pstr ("/p"), [], [], [pstr ("x")]⟩
     let cb : Callback := ⟨.trigger (pstr ("install")), pstr ("install"), pstr ("n"),
       [u], false, none⟩
     let args : ModifyArgs := { emptyArgs with add_placeholder := [pstr ("x")] }
     let out := modify args [] [] [(pstr ("t1"), [cb])]
     out.1 = [(pstr ("t1"), [cb])] ∧
     out.2.counters.urls = 1 ∧
     out.2.counters.callbacks = 1 ∧
     out.2.writes = [(pstr ("t1"), cb)] ∧
     reportsNoMatch out.2 = false) := by decide

/-- C8 amended: with no `add-standard-callbacks` flag, a callback is
counted as modified (callback counter incremented, app recorded as
touched, callback written back when not a dry run and nonempty) exactly
when the add-placeholder list is nonempty and at least one of its URLs
passes the URL filters — regardless of whether any placeholder was
newly added; the URL counter grows by one per supplied placeholder per
passing URL, again even for no-op additions; and the no-match message
is reported exactly when the URL counter is zero. -/
theorem C8_add_placeholder_counting (args : ModifyArgs) (catalog : List (PyStr × PyStr))
    (tok : PyStr) (st : ModState) (c : Callback) (hbase : st.base = none) :
    ((processCallback args catalog tok st c).1.counters.urls =
      st.counters.urls + args.add_placeholder.length * c.urls.countP (urlPassesCode args)) ∧
    ((processCallback args catalog tok st c).1.counters.callbacks =
      st.counters.callbacks +
        (if !args.add_placeholder.isEmpty && c.urls.any (urlPassesCode args) then 1 else 0)) ∧
    ((processCallback args catalog tok st c).1.counters.apps_seen =
      (if !args.add_placeholder.isEmpty && c.urls.any (urlPassesCode args) then
        setAdd st.counters.apps_seen tok else st.counters.apps_seen)) ∧
    ((processCallback args catalog tok st c).1.writes =
      st.writes ++
        (if (!args.add_placeholder.isEmpty && c.urls.any (urlPassesCode args)) &&
            (!args.dry_run && !((processCallback args catalog tok st c).2).urls.isEmpty) then
          [(tok, (processCallback args catalog tok st c).2)]
         else [])) ∧
    (∀ st2 : ModState, reportsNoMatch st2 = true ↔ st2.counters.urls = 0) := by
  rw [processCallback_spec args catalog tok st c hbase]
  refine ⟨rfl, rfl, rfl, rfl, ?_⟩
  intro st2
  simp [reportsNoMatch]

/-- C8 witness: the amended counting theorem applied at a concrete
callback whose URL already holds the added placeholder. -/
theorem C8_witness :
    (let u : CallbackURL := ⟨pstr ("https"), pstr ("h"), pstr ("/p"), [], [], [pstr ("x")]⟩
     let cb : Callback := ⟨.trigger (pstr ("install")), pstr ("install"), pstr ("n"),
       [u], false, none⟩
     let args : ModifyArgs := { emptyArgs with add_placeholder := [pstr ("x")] }
     let st : ModState := ⟨⟨[], 0, 0⟩, none, []⟩
     ((processCallback args [] (pstr ("t1")) st cb).1.counters.urls =
       st.counters.urls + args.add_placeholder.length * cb.urls.countP (urlPassesCode args)) ∧
     ((processCallback args [] (pstr ("t1")) st cb).1.counters.callbacks =
       st.counters.callbacks +
         (if !args.add_placeholder.isEmpty && cb.urls.any (urlPassesCode args) then 1 else 0)) ∧
     ((processCallback args [] (pstr ("t1")) st cb).1.counters.apps_seen =
       (if !args.add_placeholder.isEmpty && cb.urls.any (urlPassesCode args) then
         setAdd st.counters.apps_seen (pstr ("t1")) else st.counters.apps_seen)) ∧
     ((processCallback args [] (pstr ("t1")) st cb).1.writes =
       st.writes ++
         (if (!args.add_placeholder.isEmpty && cb.urls.any (urlPassesCode args)) &&
             (!args.dry_run && !((processCallback args [] (pstr ("t1")) st cb).2).urls.isEmpty) then
           [(pstr ("t1"), (processCallback args [] (pstr ("t1")) st cb).2)]
          else [])) ∧
     (∀ st2 : ModState, reportsNoMatch st2 = true ↔ st2.counters.urls = 0)) := by
  exact C8_add_placeholder_counting _ _ _ _ _ rfl

lemma unquote_cons_ne (b : Nat) (t : PyStr) (h : b ≠ 37) :
    unquote (b :: t) = b :: unquote t := by
  match t with
  | [] => simp [unquote, h]
  | [a] => simp [unquote, h]
  | a :: c :: r => simp [unquote, h]

lemma unquote_pct (a c : Nat) (t : PyStr) :
    unquote (37 :: a :: c :: t) =
      match hexVal a, hexVal c with
      | some x, some y => (16 * x + y) :: unquote t
      | _, _ => 37 :: unquote (a :: c :: t) := rfl

lemma unquote_pct_good (a c : Nat) (x y : Nat) (t : PyStr)
    (ha : hexVal a = some x) (hc : hexVal c = some y) :
    unquote (37 :: a :: c :: t) = (16 * x + y) :: unquote t := by
  rw [unquote_pct, ha, hc]

lemma alwaysSafe_hexDigit (n : Nat) (h : n < 16) : alwaysSafe (hexDigit n) = true := by
  interval_cases n <;> decide

lemma hexVal_hexDigit (n : Nat) (h : n < 16) : hexVal (hexDigit n) = some n := by
  interval_cases n <;> decide

lemma alwaysSafe_ne_37 (b : Nat) (h : alwaysSafe b = true) : b ≠ 37 := by
  intro he
  subst he
  exact absurd h (by decide)

lemma quote_cons (safe : List Nat) (b : Nat) (t : PyStr) :
    quote safe (b :: t) = quoteByte safe b ++ quote safe t := by
  simp [quote]

lemma quote_mem (safe : List Nat) (s : PyStr) (x : Nat)
    (hb : ∀ b ∈ s, b < 256) (hx : x ∈ quote safe s) :
    alwaysSafe x = true ∨ x ∈ safe ∨ x = 37 := by
  induction s with
  | nil => simp [quote] at hx
  | cons b t ih =>
    rw [quote_cons] at hx
    rcases List.mem_append.mp hx with hx2 | hx2
    · simp only [quoteByte] at hx2
      split at hx2
      · rw [List.mem_singleton] at hx2
        subst hx2
        rename_i hcond
        rcases Bool.or_eq_true _ _ |>.mp hcond with h | h
        · exact Or.inl h
        · refine Or.inr (Or.inl ?_)
          simpa [List.contains, List.elem_iff] using h
      · have hblt : b < 256 := hb b (List.mem_cons_self _ _)
        simp only [List.mem_cons, List.not_mem_nil, or_false] at hx2
        rcases hx2 with hx3 | hx3 | hx3
        · exact Or.inr (Or.inr hx3)
        · exact Or.inl (hx3 ▸ alwaysSafe_hexDigit _ (by omega))
        · exact Or.inl (hx3 ▸ alwaysSafe_hexDigit _ (by omega))
    · exact ih (fun y hy => hb y (List.mem_cons_of_mem _ hy)) hx2

lemma quotePlus_mem (s : PyStr) (x : Nat)
    (hb : ∀ b ∈ s, b < 256) (hx : x ∈ quotePlus urlSafeSet s) :
    alwaysSafe x = true ∨ x ∈ urlSafeSet ∨ x = 37 ∨ x = 43 := by
  simp only [quotePlus] at hx
  split at hx
  · obtain ⟨y, hy, hyx⟩ := List.mem_map.mp hx
    by_cases hy32 : y = 32
    · subst hy32
      simp at hyx
      exact Or.inr (Or.inr (Or.inr hyx.symm))
    · rw [if_neg hy32] at hyx
      subst hyx
      rcases quote_mem _ _ _ hb hy with h | h | h
      · exact Or.inl h
      · rcases List.mem_append.mp h with h2 | h2
        · exact Or.inr (Or.inl h2)
        · rw [List.mem_singleton] at h2
          exact absurd h2 hy32
      · exact Or.inr (Or.inr (Or.inl h))
  · rcases quote_mem _ _ _ hb hx with h | h | h
    · exact Or.inl h
    · exact Or.inr (Or.inl h)
    · exact Or.inr (Or.inr (Or.inl h))

lemma joinSep_mem (sep : PyStr) (l : List PyStr) (x : Nat)
    (hx : x ∈ joinSep sep l) : x ∈ sep ∨ ∃ f ∈ l, x ∈ f := by
  induction l with
  | nil => simp [joinSep] at hx
  | cons f t ih =>
    simp only [joinSep] at hx
    rcases List.mem_append.mp hx with hx2 | hx2
    · exact Or.inr ⟨f, List.mem_cons_self _ _, hx2⟩
    · split at hx2
      · cases hx2
      · rcases List.mem_append.mp hx2 with hx3 | hx3
        · exact Or.inl hx3
        · rcases ih hx3 with h | ⟨g, hg, hgx⟩
          · exact Or.inl h
          · exact Or.inr ⟨g, List.mem_cons_of_mem _ hg, hgx⟩

lemma urlencode_mem (pairs : List (PyStr × PyStr)) (x : Nat)
    (hb : ∀ e ∈ pairs, (∀ b ∈ e.1, b < 256) ∧ (∀ b ∈ e.2, b < 256))
    (hx : x ∈ urlencode pairs) :
    alwaysSafe x = true ∨ x ∈ urlSafeSet ∨ x = 37 ∨ x = 43 ∨ x = 61 ∨ x = 38 := by
  rcases joinSep_mem _ _ _ hx with h | ⟨f, hf, hfx⟩
  · rw [List.mem_singleton] at h
    exact Or.inr (Or.inr (Or.inr (Or.inr (Or.inr h))))
  · obtain ⟨e, he, hef⟩ := List.mem_map.mp hf
    subst hef
    rcases List.mem_append.mp hfx with h2 | h2
    · rcases quotePlus_mem _ _ (hb e he).1 h2 with h | h | h | h
      · exact Or.inl h
      · exact Or.inr (Or.inl h)
      · exact Or.inr (Or.inr (Or.inl h))
      · exact Or.inr (Or.inr (Or.inr (Or.inl h)))
    · rcases List.mem_cons.mp h2 with h3 | h3
      · exact Or.inr (Or.inr (Or.inr (Or.inr (Or.inl h3))))
      · rcases quotePlus_mem _ _ (hb e he).2 h3 with h | h | h | h
        · exact Or.inl h
        · exact Or.inr (Or.inl h)
        · exact Or.inr (Or.inr (Or.inl h))
        · exact Or.inr (Or.inr (Or.inr (Or.inl h)))

lemma alwaysSafe_bounds (x : Nat) (h : alwaysSafe x = true) :
    32 < x ∧ x ≠ 35 ∧ x ≠ 58 ∧ x ≠ 38 ∧ x ≠ 61 := by
  simp only [alwaysSafe, isAsciiAlpha, isAsciiDigit, Bool.or_eq_true, Bool.and_eq_true,
    decide_eq_true_eq] at h
  omega

/-- Every byte of an encoded query is above 32 and is not a hash, colon,
ampersand-free claims are separate. -/
lemma urlencode_byte_facts (pairs : List (PyStr × PyStr)) (x : Nat)
    (hb : ∀ e ∈ pairs, (∀ b ∈ e.1, b < 256) ∧ (∀ b ∈ e.2, b < 256))
    (hx : x ∈ urlencode pairs) :
    32 < x ∧ x ≠ 35 ∧ x ≠ 58 := by
  rcases urlencode_mem pairs x hb hx with h | h | h | h | h | h
  · obtain ⟨h1, h2, h3, _, _⟩ := alwaysSafe_bounds x h
    exact ⟨h1, h2, h3⟩
  · simp only [urlSafeSet, List.mem_cons, List.not_mem_nil, or_false] at h
    omega
  all_goals omega

lemma unquote_quote (safe : List Nat) (s : PyStr) (h37 : 37 ∉ safe)
    (hb : ∀ b ∈ s, b < 256) : unquote (quote safe s) = s := by
  induction s with
  | nil => simp [quote, unquote]
  | cons b t ih =>
    rw [quote_cons]
    have hblt : b < 256 := hb b (List.mem_cons_self _ _)
    have iht := ih (fun y hy => hb y (List.mem_cons_of_mem _ hy))
    simp only [quoteByte]
    split
    · rename_i hcond
      have hb37 : b ≠ 37 := by
        rcases Bool.or_eq_true _ _ |>.mp hcond with h | h
        · exact alwaysSafe_ne_37 b h
        · intro he
          subst he
          exact h37 (by simpa [List.contains, List.elem_iff] using h)
      rw [List.singleton_append, unquote_cons_ne b _ hb37, iht]
    · show unquote (37 :: hexDigit (b / 16) :: hexDigit (b % 16) :: quote safe t) = _
      rw [unquote_pct_good _ _ (b / 16) (b % 16) _
        (hexVal_hexDigit _ (by omega)) (hexVal_hexDigit _ (by omega)), iht]
      congr 1
      omega

lemma no_43_in_quote (safe : List Nat) (s : PyStr) (h43 : 43 ∉ safe)
    (hb : ∀ b ∈ s, b < 256) : 43 ∉ quote safe s := by
  intro hmem
  rcases quote_mem safe s 43 hb hmem with h | h | h
  · exact absurd h (by decide)
  · exact h43 h
  · cases h

lemma unquotePlus_quotePlus (s : PyStr) (hb : ∀ b ∈ s, b < 256) :
    unquotePlus (quotePlus urlSafeSet s) = s := by
  simp only [quotePlus]
  split
  · rw [unquotePlus, List.map_map]
    have hmap : (quote (urlSafeSet ++ [32]) s).map
        ((fun b => if b = 43 then 32 else b) ∘ (fun b => if b = 32 then 43 else b)) =
        (quote (urlSafeSet ++ [32]) s).map id := by
      apply List.map_congr_left
      intro y hy
      by_cases hy32 : y = 32
      · simp [hy32]
      · have hy43 : y ≠ 43 := by
          intro he
          subst he
          exact no_43_in_quote _ s (by decide) hb hy
        simp [Function.comp, hy32, hy43]
    rw [hmap, List.map_id]
    exact unquote_quote _ s (by decide) hb
  · rw [unquotePlus]
    have hmap : (quote urlSafeSet s).map (fun b => if b = 43 then 32 else b) =
        (quote urlSafeSet s).map id := by
      apply List.map_congr_left
      intro y hy
      have hy43 : y ≠ 43 := by
        intro he
        subst he
        exact no_43_in_quote _ s (by decide) hb hy
      simp [hy43]
    rw [hmap, List.map_id]
    exact unquote_quote _ s (by decide) hb

lemma splitOnFirst_not_mem (c : Nat) (s : PyStr) (h : c ∉ s) :
    splitOnFirst c s = none := by
  induction s with
  | nil => rfl
  | cons b t ih =>
    simp only [List.mem_cons, not_or] at h
    simp only [splitOnFirst]
    rw [if_neg (fun he => h.1 he.symm), ih h.2]
    rfl

lemma splitOnFirst_append (c : Nat) (pre post : PyStr) (h : c ∉ pre) :
    splitOnFirst c (pre ++ c :: post) = some (pre, post) := by
  induction pre with
  | nil => simp [splitOnFirst]
  | cons b t ih =>
    simp only [List.mem_cons, not_or] at h
    simp only [List.cons_append, splitOnFirst]
    rw [if_neg (fun he => h.1 he.symm)]
    simp only [List.append_eq] at ih ⊢
    rw [ih h.2]
    rfl

lemma splitOnFirst_eq_some (c : Nat) (s pre post : PyStr)
    (h : splitOnFirst c s = some (pre, post)) : s = pre ++ c :: post ∧ c ∉ pre := by
  induction s generalizing pre post with
  | nil => cases h
  | cons b t ih =>
    simp only [splitOnFirst] at h
    by_cases hbc : b = c
    · rw [if_pos hbc] at h
      cases h
      subst hbc
      exact ⟨rfl, List.not_mem_nil _⟩
    · rw [if_neg hbc] at h
      cases hsp : splitOnFirst c t with
      | none => rw [hsp] at h; cases h
      | some p =>
        rw [hsp] at h
        simp only [Option.map_some'] at h
        cases h
        obtain ⟨h1, h2⟩ := ih p.1 p.2 (by rw [hsp])
        constructor
        · rw [List.cons_append, ← h1]
        · simp only [List.mem_cons, not_or]
          exact ⟨fun he => hbc he.symm, h2⟩

lemma splitAllOn_not_mem (c : Nat) (f : PyStr) (h : c ∉ f) :
    splitAllOn c f = [f] := by
  induction f with
  | nil => rfl
  | cons b t ih =>
    simp only [List.mem_cons, not_or] at h
    simp only [splitAllOn]
    rw [if_neg (fun he => h.1 he.symm), ih h.2]

lemma splitAllOn_sep_append (c : Nat) (f r : PyStr) (h : c ∉ f) :
    splitAllOn c (f ++ c :: r) = f :: splitAllOn c r := by
  induction f with
  | nil =>
    simp [splitAllOn]
  | cons b t ih =>
    simp only [List.mem_cons, not_or] at h
    simp only [List.cons_append, splitAllOn]
    rw [if_neg (fun he => h.1 he.symm)]
    simp only [List.append_eq] at ih ⊢
    rw [ih h.2]

lemma no_61_in_quotePlus (s : PyStr) (hb : ∀ b ∈ s, b < 256) :
    61 ∉ quotePlus urlSafeSet s := by
  intro hmem
  rcases quotePlus_mem _ _ hb hmem with h | h | h | h
  · exact absurd h (by decide)
  · exact absurd h (by decide)
  · cases h
  · cases h

lemma no_38_in_quotePlus (s : PyStr) (hb : ∀ b ∈ s, b < 256) :
    38 ∉ quotePlus urlSafeSet s := by
  intro hmem
  rcases quotePlus_mem _ _ hb hmem with h | h | h | h
  · exact absurd h (by decide)
  · exact absurd h (by decide)
  · cases h
  · cases h

lemma parseQsl_field (k v : PyStr) (hk : ∀ b ∈ k, b < 256) (hv : ∀ b ∈ v, b < 256) :
    qslDecodeField (quotePlus urlSafeSet k ++ 61 :: quotePlus urlSafeSet v) =
      some (k, v) := by
  rw [qslDecodeField]
  rw [if_neg (by cases hq : quotePlus urlSafeSet k <;> simp [hq])]
  rw [splitOnFirst_append _ _ _ (no_61_in_quotePlus k hk)]
  show some (unquotePlus (quotePlus urlSafeSet k), unquotePlus (quotePlus urlSafeSet v)) = _
  rw [unquotePlus_quotePlus k hk, unquotePlus_quotePlus v hv]

lemma parseQsl_urlencode (pairs : List (PyStr × PyStr))
    (hb : ∀ e ∈ pairs, (∀ b ∈ e.1, b < 256) ∧ (∀ b ∈ e.2, b < 256)) :
    parseQsl (urlencode pairs) = pairs := by
  induction pairs with
  | nil => rfl
  | cons e ps ih =>
    have hbe := hb e (List.mem_cons_self _ _)
    have hbps : ∀ e2 ∈ ps, (∀ b ∈ e2.1, b < 256) ∧ (∀ b ∈ e2.2, b < 256) :=
      fun e2 he2 => hb e2 (List.mem_cons_of_mem _ he2)
    have hno38 : (38 : Nat) ∉ quotePlus urlSafeSet e.1 ++ 61 :: quotePlus urlSafeSet e.2 := by
      simp only [List.mem_append, List.mem_cons, not_or]
      exact ⟨no_38_in_quotePlus _ hbe.1, by omega, no_38_in_quotePlus _ hbe.2⟩
    cases ps with
    | nil =>
      show List.filterMap qslDecodeField (splitAllOn 38 (joinSep [38] [_])) = _
      simp only [joinSep, List.isEmpty_nil, if_true, List.append_nil]
      rw [splitAllOn_not_mem _ _ hno38]
      rw [List.filterMap_cons, parseQsl_field e.1 e.2 hbe.1 hbe.2]
      rfl
    | cons p2 ps2 =>
      have hjoin : joinSep [38] (List.map (fun e2 =>
            quotePlus urlSafeSet e2.1 ++ 61 :: quotePlus urlSafeSet e2.2) (e :: p2 :: ps2)) =
          (quotePlus urlSafeSet e.1 ++ 61 :: quotePlus urlSafeSet e.2) ++
            38 :: joinSep [38] (List.map (fun e2 =>
              quotePlus urlSafeSet e2.1 ++ 61 :: quotePlus urlSafeSet e2.2) (p2 :: ps2)) := by
        simp [joinSep]
      show List.filterMap qslDecodeField (splitAllOn 38 (joinSep [38] (List.map (fun e2 =>
        quotePlus urlSafeSet e2.1 ++ 61 :: quotePlus urlSafeSet e2.2) (e :: p2 :: ps2)))) =
        e :: p2 :: ps2
      rw [hjoin, splitAllOn_sep_append _ _ _ hno38, List.filterMap_cons,
        parseQsl_field e.1 e.2 hbe.1 hbe.2]
      show (e.1, e.2) :: List.filterMap qslDecodeField (splitAllOn 38 (joinSep [38]
        (List.map (fun e2 =>
          quotePlus urlSafeSet e2.1 ++ 61 :: quotePlus urlSafeSet e2.2) (p2 :: ps2)))) =
        e :: p2 :: ps2
      have htail := ih hbps
      simp only [parseQsl, urlencode] at htail
      rw [htail]

lemma lowerByte_idem (b : Nat) : lowerByte (lowerByte b) = lowerByte b := by
  unfold lowerByte
  by_cases hc : (65 ≤ b && b ≤ 90) = true
  · rw [if_pos hc]
    simp only [Bool.and_eq_true, decide_eq_true_eq] at hc
    rw [if_neg (by simp only [Bool.and_eq_true, decide_eq_true_eq, not_and]; omega)]
  · rw [if_neg hc, if_neg hc]

lemma isAsciiAlpha_lowerByte (b : Nat) (h : isAsciiAlpha b = true) :
    isAsciiAlpha (lowerByte b) = true := by
  unfold lowerByte
  by_cases hc : (65 ≤ b && b ≤ 90) = true
  · rw [if_pos hc]
    simp only [Bool.and_eq_true, decide_eq_true_eq] at hc
    simp only [isAsciiAlpha, Bool.or_eq_true, Bool.and_eq_true, decide_eq_true_eq]
    omega
  · rw [if_neg hc]
    exact h

lemma isSchemeChar_lowerByte (b : Nat) (h : isSchemeChar b = true) :
    isSchemeChar (lowerByte b) = true := by
  unfold lowerByte
  by_cases hc : (65 ≤ b && b ≤ 90) = true
  · rw [if_pos hc]
    simp only [Bool.and_eq_true, decide_eq_true_eq] at hc
    simp only [isSchemeChar, isAsciiAlpha, isAsciiDigit, Bool.or_eq_true, Bool.and_eq_true,
      decide_eq_true_eq]
    omega
  · rw [if_neg hc]
    exact h

lemma isAsciiAlpha_props (b : Nat) (h : isAsciiAlpha b = true) :
    32 < b ∧ b ≠ 58 ∧ b ≠ 9 ∧ b ≠ 13 ∧ b ≠ 10 := by
  simp only [isAsciiAlpha, Bool.or_eq_true, Bool.and_eq_true, decide_eq_true_eq] at h
  omega

lemma isSchemeChar_props (b : Nat) (h : isSchemeChar b = true) :
    32 < b ∧ b ≠ 58 ∧ b ≠ 9 ∧ b ≠ 13 ∧ b ≠ 10 := by
  simp only [isSchemeChar, isAsciiAlpha, isAsciiDigit, Bool.or_eq_true, Bool.and_eq_true,
    decide_eq_true_eq] at h
  omega

lemma splitOnFirst_none (c : Nat) (s : PyStr) (h : splitOnFirst c s = none) : c ∉ s := by
  induction s with
  | nil => exact List.not_mem_nil c
  | cons b t ih =>
    simp only [splitOnFirst] at h
    by_cases hbc : b = c
    · rw [if_pos hbc] at h; cases h
    · rw [if_neg hbc] at h
      cases hsp : splitOnFirst c t with
      | some p => rw [hsp] at h; cases h
      | none =>
        simp only [List.mem_cons, not_or]
        exact ⟨fun he => hbc he.symm, ih hsp⟩

lemma splitQF_fst_mem (c : Nat) (t : PyStr) :
    ∀ b ∈ ((splitOnFirst c t).map Prod.fst).getD t, b ∈ t := by
  cases hsp : splitOnFirst c t with
  | none => intro b hb; simpa using hb
  | some p =>
    obtain ⟨h1, _⟩ := splitOnFirst_eq_some c t p.1 p.2 (by rw [hsp])
    intro b hb
    simp only [Option.map_some', Option.getD_some] at hb
    rw [h1]
    exact List.mem_append_left _ hb

lemma splitQF_snd_mem (c : Nat) (t : PyStr) :
    ∀ b ∈ ((splitOnFirst c t).map Prod.snd).getD [], b ∈ t := by
  cases hsp : splitOnFirst c t with
  | none => intro b hb; simp at hb
  | some p =>
    obtain ⟨h1, _⟩ := splitOnFirst_eq_some c t p.1 p.2 (by rw [hsp])
    intro b hb
    simp only [Option.map_some', Option.getD_some] at hb
    rw [h1]
    exact List.mem_append_right _ (List.mem_cons_of_mem _ hb)

lemma splitQF_fst_not_mem (c : Nat) (t : PyStr) :
    c ∉ ((splitOnFirst c t).map Prod.fst).getD t := by
  cases hsp : splitOnFirst c t with
  | none => simpa using splitOnFirst_none c t hsp
  | some p =>
    obtain ⟨_, h2⟩ := splitOnFirst_eq_some c t p.1 p.2 (by rw [hsp])
    simpa using h2

lemma splitQF_fst_cons_ne (c b : Nat) (u : PyStr) (h : b ≠ c) :
    ∃ w, ((splitOnFirst c (b :: u)).map Prod.fst).getD (b :: u) = b :: w := by
  simp only [splitOnFirst, if_neg h]
  cases hsp : splitOnFirst c u with
  | none => exact ⟨u, rfl⟩
  | some p => exact ⟨p.1, rfl⟩

lemma splitQF_fst_cons_eq (c : Nat) (u : PyStr) :
    ((splitOnFirst c (c :: u)).map Prod.fst).getD (c :: u) = [] := by
  simp [splitOnFirst]

lemma takeWhile_append_all (p : Nat → Bool) (l1 l2 : PyStr)
    (h1 : ∀ x ∈ l1, p x = true)
    (h2 : l2 = [] ∨ ∃ b t, l2 = b :: t ∧ p b = false) :
    (l1 ++ l2).takeWhile p = l1 ∧ (l1 ++ l2).dropWhile p = l2 := by
  induction l1 with
  | nil =>
    rcases h2 with h2 | ⟨b, t, h2, hpb⟩
    · subst h2; exact ⟨rfl, rfl⟩
    · subst h2
      simp only [List.nil_append, List.takeWhile_cons, List.dropWhile_cons, hpb]
      exact ⟨rfl, rfl⟩
  | cons x xs ih =>
    have hx : p x = true := h1 x (List.mem_cons_self _ _)
    have hxs : ∀ y ∈ xs, p y = true := fun y hy => h1 y (List.mem_cons_of_mem _ hy)
    obtain ⟨ht, hd⟩ := ih hxs
    simp only [List.cons_append, List.takeWhile_cons, List.dropWhile_cons, hx, if_true]
    exact ⟨by rw [ht], by rw [hd]⟩

lemma dropWhile_shape (p : Nat → Bool) (l : PyStr) :
    l.dropWhile p = [] ∨ ∃ b u, l.dropWhile p = b :: u ∧ p b = false := by
  induction l with
  | nil => exact Or.inl rfl
  | cons x xs ih =>
    by_cases hx : p x = true
    · simpa [List.dropWhile_cons, hx] using ih
    · refine Or.inr ⟨x, xs, ?_, eq_false_of_ne_true hx⟩
      simp [List.dropWhile_cons, eq_false_of_ne_true hx]

lemma removeUnsafe_mem (s : PyStr) (b : Nat) (h : b ∈ removeUnsafe s) :
    b ∈ s ∧ b ≠ 9 ∧ b ≠ 13 ∧ b ≠ 10 := by
  simp only [removeUnsafe, List.mem_filter, Bool.and_eq_true, decide_eq_true_eq] at h
  obtain ⟨hmem, hcl⟩ := h
  refine ⟨(List.dropWhile_sublist _).subset hmem, ?_⟩
  simp only [ne_eq]
  tauto

lemma removeUnsafe_id (s : PyStr)
    (hcl : ∀ b ∈ s, b ≠ 9 ∧ b ≠ 13 ∧ b ≠ 10)
    (hh : s = [] ∨ ∃ b t, s = b :: t ∧ 32 < b) :
    removeUnsafe s = s := by
  have hdrop : s.dropWhile (fun b => b ≤ 32) = s := by
    rcases hh with hh | ⟨b, t, hh, hb⟩
    · subst hh; rfl
    · subst hh
      rw [List.dropWhile_cons_of_neg]
      simp only [decide_eq_true_eq]
      omega
  rw [removeUnsafe, hdrop, List.filter_eq_self]
  intro b hb
  obtain ⟨h9, h13, h10⟩ := hcl b hb
  simp [h9, h13, h10]

lemma splitScheme_shape (t : PyStr) :
    (splitScheme t).1 = [] ∨ ∃ b bs, (splitScheme t).1 = b :: bs ∧ isAsciiAlpha b = true ∧
      bs.all isSchemeChar = true ∧ List.map lowerByte (b :: bs) = b :: bs := by
  unfold splitScheme
  split
  · exact Or.inl rfl
  · split
    · exact Or.inl rfl
    · split
      · rename_i b bs hsp hcond
        simp only [Bool.and_eq_true] at hcond
        refine Or.inr ⟨lowerByte b, bs.map lowerByte, by simp, isAsciiAlpha_lowerByte b hcond.1,
          ?_, ?_⟩
        · rw [List.all_eq_true] at hcond ⊢
          intro x hx
          obtain ⟨y, hy, hyx⟩ := List.mem_map.mp hx
          exact hyx ▸ isSchemeChar_lowerByte y (hcond.2 y hy)
        · simp only [List.map_cons, lowerByte_idem, List.map_map, List.cons.injEq, true_and]
          exact List.map_congr_left (fun x _ => lowerByte_idem x)
      · exact Or.inl rfl

lemma splitScheme_snd_mem (t : PyStr) : ∀ x ∈ (splitScheme t).2, x ∈ t := by
  unfold splitScheme
  split
  · intro x hx; exact hx
  · rename_i p pre post hsp
    split
    · intro x hx; exact hx
    · split
      · rename_i b bs hcond
        obtain ⟨h1, _⟩ := splitOnFirst_eq_some 58 t (b :: bs) post hsp
        intro x hx
        rw [h1]
        exact List.mem_append_right _ (List.mem_cons_of_mem _ hx)
      · intro x hx; exact hx

lemma splitNetloc_fst_stop (t : PyStr) :
    ∀ b ∈ (splitNetloc t).1, ¬(b = 47 ∨ b = 63 ∨ b = 35) := by
  simp only [splitNetloc]
  split
  · intro b hb
    have hp := List.mem_takeWhile_imp hb
    simp only [Bool.not_eq_true', Bool.or_eq_false_iff, decide_eq_false_iff_not] at hp
    tauto
  · intro b hb
    simp at hb

lemma splitNetloc_fst_mem (t : PyStr) : ∀ b ∈ (splitNetloc t).1, b ∈ t := by
  simp only [splitNetloc]
  split
  · rename_i rest
    intro b hb
    have := (List.takeWhile_sublist _).subset hb
    exact List.mem_cons_of_mem _ (List.mem_cons_of_mem _ this)
  · intro b hb
    simp at hb

lemma splitNetloc_snd_mem (t : PyStr) : ∀ b ∈ (splitNetloc t).2, b ∈ t := by
  simp only [splitNetloc]
  split
  · rename_i rest
    intro b hb
    have := (List.dropWhile_sublist _).subset hb
    exact List.mem_cons_of_mem _ (List.mem_cons_of_mem _ this)
  · intro b hb
    exact hb

lemma splitNetloc_snd_shape (t : PyStr) :
    (splitNetloc t).1 ≠ [] →
    (splitNetloc t).2 = [] ∨ ∃ b u, (splitNetloc t).2 = b :: u ∧ (b = 47 ∨ b = 63 ∨ b = 35) := by
  simp only [splitNetloc]
  split
  · intro _
    rcases dropWhile_shape (fun b => !(decide (b = 47) || decide (b = 63) || decide (b = 35)))
        _ with hd | ⟨b, u, hd, hpb⟩
    · exact Or.inl hd
    · refine Or.inr ⟨b, u, hd, ?_⟩
      simp only [Bool.not_eq_false', Bool.or_eq_true, decide_eq_true_eq] at hpb
      tauto
  · intro h
    exact absurd rfl h

lemma splitNetloc_eval (nl T : PyStr)
    (hstop : ∀ b ∈ nl, ¬(b = 47 ∨ b = 63 ∨ b = 35))
    (hT : T = [] ∨ ∃ b u, T = b :: u ∧ (b = 47 ∨ b = 63 ∨ b = 35)) :
    splitNetloc (47 :: 47 :: (nl ++ T)) = (nl, T) := by
  have hta := takeWhile_append_all
    (fun b => !(decide (b = 47) || decide (b = 63) || decide (b = 35))) nl T
    (by intro x hx
        have := hstop x hx
        simp only [Bool.not_eq_true', Bool.or_eq_false_iff, decide_eq_false_iff_not]
        tauto)
    (by rcases hT with h | ⟨b, u, h, hb⟩
        · exact Or.inl h
        · refine Or.inr ⟨b, u, h, ?_⟩
          simp only [Bool.not_eq_false', Bool.or_eq_true, decide_eq_true_eq]
          tauto)
  simp only [splitNetloc]
  rw [Prod.mk.injEq]
  exact hta

lemma pathTerm_shape (rest2 : PyStr)
    (h : rest2 = [] ∨ ∃ b u, rest2 = b :: u ∧ (b = 47 ∨ b = 63 ∨ b = 35)) :
    ((splitOnFirst 63 (((splitOnFirst 35 rest2).map Prod.fst).getD rest2)).map Prod.fst).getD
      (((splitOnFirst 35 rest2).map Prod.fst).getD rest2) = [] ∨
    ∃ u, ((splitOnFirst 63 (((splitOnFirst 35 rest2).map Prod.fst).getD rest2)).map
      Prod.fst).getD (((splitOnFirst 35 rest2).map Prod.fst).getD rest2) = 47 :: u := by
  rcases h with h | ⟨b, u, h, hb⟩
  · subst h
    exact Or.inl rfl
  · subst h
    rcases hb with hb | hb | hb <;> subst hb
    · obtain ⟨w, hw⟩ := splitQF_fst_cons_ne 35 47 u (by omega)
      rw [hw]
      obtain ⟨w2, hw2⟩ := splitQF_fst_cons_ne 63 47 w (by omega)
      rw [hw2]
      exact Or.inr ⟨w2, rfl⟩
    · obtain ⟨w, hw⟩ := splitQF_fst_cons_ne 35 63 u (by omega)
      rw [hw, splitQF_fst_cons_eq 63 w]
      exact Or.inl rfl
    · rw [splitQF_fst_cons_eq 35 u]
      exact Or.inl rfl

lemma urlsplit_ok_props (s : PyStr) (r : SplitResult) (h : urlsplit s = .ok r) :
    (r.scheme = [] ∨ ∃ b bs, r.scheme = b :: bs ∧ isAsciiAlpha b = true ∧
        bs.all isSchemeChar = true ∧ List.map lowerByte (b :: bs) = b :: bs) ∧
    (∀ b ∈ r.netloc, ¬(b = 47 ∨ b = 63 ∨ b = 35)) ∧
    ((r.netloc.contains 91 && !r.netloc.contains 93 ||
      r.netloc.contains 93 && !r.netloc.contains 91) = false) ∧
    (r.netloc ≠ [] → r.path = [] ∨ ∃ u, r.path = 47 :: u) ∧
    35 ∉ r.path ∧ 63 ∉ r.path ∧
    (∀ b ∈ r.netloc, b ∈ removeUnsafe s) ∧
    (∀ b ∈ r.path, b ∈ removeUnsafe s) ∧
    (∀ b ∈ r.query, b ∈ removeUnsafe s) ∧
    (∀ b ∈ r.fragment, b ∈ removeUnsafe s) := by
  simp only [urlsplit] at h
  split at h
  · exact Except.noConfusion h
  · rename_i hbr
    injection h with h
    subst h
    refine ⟨splitScheme_shape _, splitNetloc_fst_stop _, eq_false_of_ne_true hbr,
      fun hnl => pathTerm_shape _ (splitNetloc_snd_shape _ hnl),
      ?_, ?_, ?_, ?_, ?_, ?_⟩
    · intro hm
      exact splitQF_fst_not_mem 35 _ (splitQF_fst_mem 63 _ 35 hm)
    · intro hm
      exact splitQF_fst_not_mem 63 _ hm
    · exact fun b hb => splitScheme_snd_mem _ b (splitNetloc_fst_mem _ b hb)
    · exact fun b hb => splitScheme_snd_mem _ b (splitNetloc_snd_mem _ b
        (splitQF_fst_mem 35 _ b (splitQF_fst_mem 63 _ b hb)))
    · exact fun b hb => splitScheme_snd_mem _ b (splitNetloc_snd_mem _ b
        (splitQF_fst_mem 35 _ b (splitQF_snd_mem 63 _ b hb)))
    · exact fun b hb => splitScheme_snd_mem _ b (splitNetloc_snd_mem _ b
        (splitQF_snd_mem 35 _ b hb))

lemma splitScheme_head_nonalpha (b : Nat) (w : PyStr) (hb : isAsciiAlpha b = false) :
    splitScheme (b :: w) = ([], b :: w) := by
  unfold splitScheme
  split
  · rfl
  · split
    · rfl
    · split
      · rename_i c cs hsp hcond
        obtain ⟨h1, _⟩ := splitOnFirst_eq_some 58 (b :: w) (c :: cs) _ hsp
        simp only [List.cons_append] at h1
        injection h1 with hbc _
        simp only [Bool.and_eq_true] at hcond
        rw [← hbc, hb] at hcond
        exact absurd hcond.1 (by simp)
      · rfl

lemma splitScheme_scheme (b : Nat) (bs : List Nat) (rest0 : PyStr)
    (ha : isAsciiAlpha b = true) (hall : bs.all isSchemeChar = true)
    (hlow : List.map lowerByte (b :: bs) = b :: bs) :
    splitScheme ((b :: bs) ++ 58 :: rest0) = (b :: bs, rest0) := by
  have h58 : 58 ∉ b :: bs := by
    intro hmem
    rcases List.mem_cons.mp hmem with h | h
    · exact (isAsciiAlpha_props b ha).2.1 h.symm
    · exact absurd rfl (isSchemeChar_props 58 (List.all_eq_true.mp hall 58 h)).2.1
  unfold splitScheme
  rw [splitOnFirst_append 58 (b :: bs) rest0 h58]
  show (if (isAsciiAlpha b && bs.all isSchemeChar) = true
        then (List.map lowerByte (b :: bs), rest0)
        else ([], (b :: bs) ++ 58 :: rest0)) = (b :: bs, rest0)
  rw [if_pos (by rw [ha, hall]; rfl), hlow]

lemma urlunsplit_normal (sc nl pa q fr : PyStr) (hnl : nl ≠ [])
    (hpa : pa = [] ∨ ∃ t, pa = 47 :: t) :
    urlunsplit sc nl pa q fr =
      (if sc ≠ [] then sc ++ [58] else []) ++
        47 :: 47 :: (nl ++ (pa ++
          ((if q ≠ [] then 63 :: q else []) ++ (if fr ≠ [] then 35 :: fr else [])))) := by
  rcases hpa with hpa | ⟨t, hpa⟩ <;> subst hpa <;>
    by_cases hsc : sc = [] <;> by_cases hq : q = [] <;> by_cases hf : fr = [] <;>
      simp [urlunsplit, hnl, hsc, hq, hf, List.append_assoc]

lemma cleanT (nl pa q fr : PyStr)
    (hq : ∀ b ∈ q, 32 < b ∧ b ≠ 35)
    (hnl_clean : ∀ b ∈ nl, b ≠ 9 ∧ b ≠ 13 ∧ b ≠ 10)
    (hpa_clean : ∀ b ∈ pa, b ≠ 9 ∧ b ≠ 13 ∧ b ≠ 10)
    (hfr_clean : ∀ b ∈ fr, b ≠ 9 ∧ b ≠ 13 ∧ b ≠ 10) :
    ∀ b ∈ 47 :: 47 :: (nl ++ (pa ++
      ((if q ≠ [] then 63 :: q else []) ++ (if fr ≠ [] then 35 :: fr else [])))),
      b ≠ 9 ∧ b ≠ 13 ∧ b ≠ 10 := by
  intro b hb
  simp only [List.mem_cons, List.mem_append] at hb
  rcases hb with hb | hb | hb | hb | hb | hb
  · omega
  · omega
  · exact hnl_clean b hb
  · exact hpa_clean b hb
  · by_cases hq0 : q = []
    · rw [if_neg (by simp [hq0])] at hb
      simp at hb
    · rw [if_pos (by simp [hq0])] at hb
      rcases List.mem_cons.mp hb with hb | hb
      · omega
      · have := (hq b hb).1
        omega
  · by_cases hf0 : fr = []
    · rw [if_neg (by simp [hf0])] at hb
      simp at hb
    · rw [if_pos (by simp [hf0])] at hb
      rcases List.mem_cons.mp hb with hb | hb
      · omega
      · exact hfr_clean b hb

lemma urlsplit_eval (U sc nl pa q fr : PyStr)
    (hclean : removeUnsafe U = U)
    (hss : splitScheme U = (sc, 47 :: 47 :: (nl ++ (pa ++
      ((if q ≠ [] then 63 :: q else []) ++ (if fr ≠ [] then 35 :: fr else []))))))
    (hstop : ∀ b ∈ nl, ¬(b = 47 ∨ b = 63 ∨ b = 35))
    (hbr : (nl.contains 91 && !nl.contains 93 || nl.contains 93 && !nl.contains 91) = false)
    (hpa : pa = [] ∨ ∃ t, pa = 47 :: t)
    (hpa35 : 35 ∉ pa) (hpa63 : 63 ∉ pa)
    (hq : ∀ b ∈ q, 32 < b ∧ b ≠ 35) :
    urlsplit U = .ok ⟨sc, nl, pa, q, fr⟩ := by
  have hq35 : 35 ∉ q := fun hm => (hq 35 hm).2 rfl
  have hqp35 : 35 ∉ pa ++ (if q ≠ [] then 63 :: q else []) := by
    intro hm
    rcases List.mem_append.mp hm with hm | hm
    · exact hpa35 hm
    · by_cases hq0 : q = []
      · rw [if_neg (by simp [hq0])] at hm
        simp at hm
      · rw [if_pos (by simp [hq0])] at hm
        rcases List.mem_cons.mp hm with hm | hm
        · omega
        · exact hq35 hm
  have hTshape : pa ++ ((if q ≠ [] then 63 :: q else []) ++ (if fr ≠ [] then 35 :: fr else []))
      = [] ∨ ∃ b u, pa ++ ((if q ≠ [] then 63 :: q else []) ++
        (if fr ≠ [] then 35 :: fr else [])) = b :: u ∧ (b = 47 ∨ b = 63 ∨ b = 35) := by
    rcases hpa with hpa0 | ⟨t, hpa0⟩ <;> subst hpa0
    · by_cases hq0 : q = []
      · by_cases hf0 : fr = []
        · exact Or.inl (by simp [hq0, hf0])
        · exact Or.inr ⟨35, fr, by simp [hq0, hf0], by tauto⟩
      · exact Or.inr ⟨63, q ++ (if fr ≠ [] then 35 :: fr else []), by simp [hq0], by tauto⟩
    · exact Or.inr ⟨47, t ++ ((if q ≠ [] then 63 :: q else []) ++
        (if fr ≠ [] then 35 :: fr else [])), by simp, by tauto⟩
  have hsplitn := splitNetloc_eval nl _ hstop hTshape
  simp only [urlsplit, hclean, hss, hsplitn, hbr, Bool.false_eq_true, if_false]
  by_cases hf0 : fr = []
  · subst hf0
    simp only [ne_eq, not_true_eq_false, if_false, List.append_nil]
    rw [splitOnFirst_not_mem 35 _ hqp35]
    simp only [Option.map_none', Option.getD_none, Option.getD]
    by_cases hq0 : q = []
    · subst hq0
      simp only [ne_eq, not_true_eq_false, if_false, List.append_nil]
      rw [splitOnFirst_not_mem 63 _ hpa63]
      rfl
    · rw [if_pos (show q ≠ [] from hq0)]
      rw [splitOnFirst_append 63 pa q hpa63]
      rfl
  · rw [if_pos (show fr ≠ [] from hf0)]
    have hT35 : pa ++ ((if q ≠ [] then 63 :: q else []) ++ 35 :: fr) =
        (pa ++ (if q ≠ [] then 63 :: q else [])) ++ 35 :: fr := by
      simp [List.append_assoc]
    rw [hT35, splitOnFirst_append 35 _ fr hqp35]
    simp only [Option.map_some', Option.getD_some]
    by_cases hq0 : q = []
    · subst hq0
      simp only [ne_eq, not_true_eq_false, if_false, List.append_nil]
      rw [splitOnFirst_not_mem 63 _ hpa63]
      rfl
    · rw [if_pos (show q ≠ [] from hq0)]
      rw [splitOnFirst_append 63 pa q hpa63]
      rfl

lemma urlsplit_unsplit (sc nl pa q fr : PyStr)
    (hsc : sc = [] ∨ ∃ b bs, sc = b :: bs ∧ isAsciiAlpha b = true ∧
      bs.all isSchemeChar = true ∧ List.map lowerByte (b :: bs) = b :: bs)
    (hnl : nl ≠ [])
    (hstop : ∀ b ∈ nl, ¬(b = 47 ∨ b = 63 ∨ b = 35))
    (hbr : (nl.contains 91 && !nl.contains 93 || nl.contains 93 && !nl.contains 91) = false)
    (hpa : pa = [] ∨ ∃ t, pa = 47 :: t)
    (hpa35 : 35 ∉ pa) (hpa63 : 63 ∉ pa)
    (hq : ∀ b ∈ q, 32 < b ∧ b ≠ 35)
    (hnl_clean : ∀ b ∈ nl, b ≠ 9 ∧ b ≠ 13 ∧ b ≠ 10)
    (hpa_clean : ∀ b ∈ pa, b ≠ 9 ∧ b ≠ 13 ∧ b ≠ 10)
    (hfr_clean : ∀ b ∈ fr, b ≠ 9 ∧ b ≠ 13 ∧ b ≠ 10) :
    urlsplit (urlunsplit sc nl pa q fr) = .ok ⟨sc, nl, pa, q, fr⟩ := by
  rw [urlunsplit_normal sc nl pa q fr hnl hpa]
  have hclT := cleanT nl pa q fr hq hnl_clean hpa_clean hfr_clean
  rcases hsc with hsc0 | ⟨b0, bs, hsc0, ha, hall, hlow⟩
  · subst hsc0
    simp only [ne_eq, not_true_eq_false, if_false, List.nil_append]
    exact urlsplit_eval _ [] nl pa q fr
      (removeUnsafe_id _ hclT (Or.inr ⟨47, _, rfl, by omega⟩))
      (splitScheme_head_nonalpha 47 _ (by decide))
      hstop hbr hpa hpa35 hpa63 hq
  · subst hsc0
    rw [if_pos (by simp)]
    have hUeq : ((b0 :: bs) ++ [58]) ++ 47 :: 47 :: (nl ++ (pa ++
        ((if q ≠ [] then 63 :: q else []) ++ (if fr ≠ [] then 35 :: fr else [])))) =
        (b0 :: bs) ++ 58 :: (47 :: 47 :: (nl ++ (pa ++
        ((if q ≠ [] then 63 :: q else []) ++ (if fr ≠ [] then 35 :: fr else []))))) := by
      simp [List.append_assoc]
    rw [hUeq]
    have hclU : ∀ b ∈ (b0 :: bs) ++ 58 :: (47 :: 47 :: (nl ++ (pa ++
        ((if q ≠ [] then 63 :: q else []) ++ (if fr ≠ [] then 35 :: fr else []))))),
        b ≠ 9 ∧ b ≠ 13 ∧ b ≠ 10 := by
      intro b hb
      rcases List.mem_append.mp hb with hb | hb
      · rcases List.mem_cons.mp hb with hb | hb
        · subst hb
          have := isAsciiAlpha_props _ ha
          omega
        · have := isSchemeChar_props b (List.all_eq_true.mp hall b hb)
          omega
      · rcases List.mem_cons.mp hb with hb | hb
        · omega
        · exact hclT b hb
    have hhead : (b0 :: bs) ++ 58 :: (47 :: 47 :: (nl ++ (pa ++
        ((if q ≠ [] then 63 :: q else []) ++ (if fr ≠ [] then 35 :: fr else []))))) =
        b0 :: (bs ++ 58 :: (47 :: 47 :: (nl ++ (pa ++
        ((if q ≠ [] then 63 :: q else []) ++ (if fr ≠ [] then 35 :: fr else [])))))) := by
      simp
    exact urlsplit_eval _ (b0 :: bs) nl pa q fr
      (removeUnsafe_id _ hclU (Or.inr ⟨b0, _, hhead, (isAsciiAlpha_props b0 ha).1⟩))
      (splitScheme_scheme b0 bs _ ha hall hlow)
      hstop hbr hpa hpa35 hpa63 hq

lemma hasSub_colon_free (q : PyStr) (h : ∀ b ∈ q, b ≠ 58) :
    hasSub (pstr ("://")) q = false := by
  induction q with
  | nil => rfl
  | cons b t ih =>
    have hb : b ≠ 58 := h b (List.mem_cons_self _ _)
    have ht := ih (fun x hx => h x (List.mem_cons_of_mem _ hx))
    show (List.isPrefixOf (pstr ("://")) (b :: t) || hasSub (pstr ("://")) t) = false
    rw [ht, Bool.or_false]
    show List.isPrefixOf [58, 47, 47] (b :: t) = false
    have h58 : (58 == b) = false := beq_eq_false_iff_ne.mpr (Ne.symm hb)
    simp [List.isPrefixOf, h58]

lemma hexVal_lt (b x : Nat) (h : hexVal b = some x) : x < 16 := by
  unfold hexVal at h
  split at h
  · rename_i hc
    injection h with h
    simp only [Bool.and_eq_true, decide_eq_true_eq] at hc
    omega
  · split at h
    · rename_i hc
      injection h with h
      simp only [Bool.and_eq_true, decide_eq_true_eq] at hc
      omega
    · split at h
      · rename_i hc
        injection h with h
        simp only [Bool.and_eq_true, decide_eq_true_eq] at hc
        omega
      · cases h

lemma unquote_pct_bad (a c : Nat) (t : PyStr)
    (h : ∀ x y, hexVal a = some x → hexVal c = some y → False) :
    unquote (37 :: a :: c :: t) = 37 :: unquote (a :: c :: t) := by
  rw [unquote_pct]
  cases hva : hexVal a with
  | none => cases hvc : hexVal c <;> rfl
  | some x =>
    cases hvc : hexVal c with
    | none => rfl
    | some y => exact (h x y hva hvc).elim

lemma unquote_cons_short (b : Nat) (rest : PyStr)
    (h : ∀ a b1 rest1, b = 37 → rest = a :: b1 :: rest1 → False) :
    unquote (b :: rest) = b :: unquote rest := by
  by_cases hb : b = 37
  · subst hb
    match rest with
    | [] => rfl
    | [a] => rfl
    | a :: b1 :: r => exact (h a b1 r rfl rfl).elim
  · exact unquote_cons_ne b rest hb

lemma unquote_bound (s : PyStr) :
    (∀ b ∈ s, b < 256) → ∀ x ∈ unquote s, x < 256 := by
  induction s using unquote.induct with
  | case1 a b rest x y h1 h2 ih =>
    intro hb z hz
    rw [unquote_pct_good a b x y rest h2 h1] at hz
    rcases List.mem_cons.mp hz with hz | hz
    · have hxl := hexVal_lt a x h2
      have hyl := hexVal_lt b y h1
      omega
    · exact ih (fun c hc => hb c (List.mem_cons_of_mem _ (List.mem_cons_of_mem _
        (List.mem_cons_of_mem _ hc)))) z hz
  | case2 a b rest hbad ih =>
    intro hb z hz
    rw [unquote_pct_bad a b rest hbad] at hz
    rcases List.mem_cons.mp hz with hz | hz
    · omega
    · exact ih (fun c hc => hb c (List.mem_cons_of_mem _ hc)) z hz
  | case3 b rest hshort ih =>
    intro hb z hz
    rw [unquote_cons_short b rest hshort] at hz
    rcases List.mem_cons.mp hz with hz | hz
    · subst hz
      exact hb z (List.mem_cons_self _ _)
    · exact ih (fun c hc => hb c (List.mem_cons_of_mem _ hc)) z hz
  | case4 =>
    intro _ z hz
    exact absurd hz (List.not_mem_nil z)

lemma unquotePlus_bound (s : PyStr) (hb : ∀ b ∈ s, b < 256) :
    ∀ x ∈ unquotePlus s, x < 256 := by
  apply unquote_bound
  intro b hbm
  obtain ⟨c, hc, hcb⟩ := List.mem_map.mp hbm
  rw [← hcb]
  by_cases h43 : c = 43
  · rw [if_pos h43]
    omega
  · rw [if_neg h43]
    exact hb c hc

lemma splitAllOn_mem (c : Nat) (s : PyStr) :
    ∀ f ∈ splitAllOn c s, ∀ b ∈ f, b ∈ s := by
  induction s with
  | nil =>
    intro f hf b hbf
    simp only [splitAllOn, List.mem_singleton] at hf
    subst hf
    exact absurd hbf (List.not_mem_nil b)
  | cons x xs ih =>
    intro f hf b hbf
    simp only [splitAllOn] at hf
    by_cases hxc : x = c
    · rw [if_pos hxc] at hf
      rcases List.mem_cons.mp hf with hf | hf
      · subst hf
        exact absurd hbf (List.not_mem_nil b)
      · exact List.mem_cons_of_mem _ (ih f hf b hbf)
    · rw [if_neg hxc] at hf
      cases hr : splitAllOn c xs with
      | nil =>
        rw [hr] at hf
        simp only [List.mem_singleton] at hf
        subst hf
        rcases List.mem_singleton.mp hbf with hbf
        subst hbf
        exact List.mem_cons_self _ _
      | cons hh tt =>
        rw [hr] at hf
        rcases List.mem_cons.mp hf with hf | hf
        · subst hf
          rcases List.mem_cons.mp hbf with hbf | hbf
          · subst hbf
            exact List.mem_cons_self _ _
          · exact List.mem_cons_of_mem _
              (ih hh (by rw [hr]; exact List.mem_cons_self _ _) b hbf)
        · exact List.mem_cons_of_mem _
            (ih f (by rw [hr]; exact List.mem_cons_of_mem _ hf) b hbf)

lemma qslDecodeField_bound (nv : PyStr) (e : PyStr × PyStr)
    (h : qslDecodeField nv = some e) (hb : ∀ b ∈ nv, b < 256) :
    (∀ b ∈ e.1, b < 256) ∧ (∀ b ∈ e.2, b < 256) := by
  unfold qslDecodeField at h
  split at h
  · cases h
  · split at h
    · injection h with h
      subst h
      refine ⟨unquotePlus_bound nv hb, ?_⟩
      intro b hbm
      exact absurd hbm (List.not_mem_nil b)
    · rename_i n v hsp
      injection h with h
      subst h
      obtain ⟨h1, _⟩ := splitOnFirst_eq_some 61 nv n v hsp
      subst h1
      constructor
      · exact unquotePlus_bound n (fun b hbm => hb b (List.mem_append_left _ hbm))
      · exact unquotePlus_bound v (fun b hbm =>
          hb b (List.mem_append_right _ (List.mem_cons_of_mem _ hbm)))

lemma parseQsl_bound (qs : PyStr) (hb : ∀ b ∈ qs, b < 256) :
    ∀ e ∈ parseQsl qs, (∀ b ∈ e.1, b < 256) ∧ (∀ b ∈ e.2, b < 256) := by
  intro e he
  obtain ⟨nv, hnv, hdec⟩ := List.mem_filterMap.mp he
  exact qslDecodeField_bound nv e hdec
    (fun b hbm => hb b (splitAllOn_mem 38 qs nv hnv b hbm))

lemma insertStr_pairwise (x : PyStr) (l : List PyStr)
    (h : l.Pairwise (fun a b => strLt b a = false)) :
    (insertStr x l).Pairwise (fun a b => strLt b a = false) := by
  induction l with
  | nil => simp [insertStr]
  | cons y ys ih =>
    rcases List.pairwise_cons.mp h with ⟨hy, hys⟩
    simp only [insertStr]
    split
    · rename_i hlt
      refine List.pairwise_cons.mpr ⟨?_, ih hys⟩
      intro a ha
      rcases (mem_insertStr x a ys).mp ha with ha | ha
      · rw [ha]
        exact strLt_asymm y x hlt
      · exact hy a ha
    · rename_i hlt
      have hxy : strLt y x = false := eq_false_of_ne_true hlt
      refine List.pairwise_cons.mpr ⟨?_, h⟩
      intro a ha
      rcases List.mem_cons.mp ha with ha | ha
      · subst ha
        exact hxy
      · exact strGe_trans x y a hxy (hy a ha)

lemma sortStrs_pairwise (l : List PyStr) :
    (sortStrs l).Pairwise (fun a b => strLt b a = false) := by
  induction l with
  | nil => simp [sortStrs]
  | cons y ys ih => exact insertStr_pairwise y _ ih

lemma sortStrs_id_of_pairwise (l : List PyStr)
    (h : l.Pairwise (fun a b => strLt b a = false)) : sortStrs l = l := by
  induction l with
  | nil => rfl
  | cons y ys ih =>
    rcases List.pairwise_cons.mp h with ⟨hy, hys⟩
    show insertStr y (sortStrs ys) = y :: ys
    rw [ih hys]
    cases ys with
    | nil => rfl
    | cons z zs =>
      have hzy := hy z (List.mem_cons_self _ _)
      simp [insertStr, hzy]

lemma insertAssoc_pairwise (x : PyStr × PyStr) (l : List (PyStr × PyStr))
    (h : l.Pairwise (fun a b => strLt b.1 a.1 = false)) :
    (insertAssoc x l).Pairwise (fun a b => strLt b.1 a.1 = false) := by
  induction l with
  | nil => simp [insertAssoc]
  | cons y ys ih =>
    rcases List.pairwise_cons.mp h with ⟨hy, hys⟩
    simp only [insertAssoc]
    split
    · rename_i hlt
      refine List.pairwise_cons.mpr ⟨?_, ih hys⟩
      intro a ha
      rcases (mem_insertAssoc x a ys).mp ha with ha | ha
      · rw [ha]
        exact strLt_asymm y.1 x.1 hlt
      · exact hy a ha
    · rename_i hlt
      have hxy : strLt y.1 x.1 = false := eq_false_of_ne_true hlt
      refine List.pairwise_cons.mpr ⟨?_, h⟩
      intro a ha
      rcases List.mem_cons.mp ha with ha | ha
      · subst ha
        exact hxy
      · exact strGe_trans x.1 y.1 a.1 hxy (hy a ha)

lemma sortPairs_pairwise (l : List (PyStr × PyStr)) :
    (sortPairs l).Pairwise (fun a b => strLt b.1 a.1 = false) := by
  induction l with
  | nil => simp [sortPairs]
  | cons y ys ih => exact insertAssoc_pairwise y _ ih

lemma sortPairs_id_of_pairwise (l : List (PyStr × PyStr))
    (h : l.Pairwise (fun a b => strLt b.1 a.1 = false)) : sortPairs l = l := by
  induction l with
  | nil => rfl
  | cons y ys ih =>
    rcases List.pairwise_cons.mp h with ⟨hy, hys⟩
    show insertAssoc y (sortPairs ys) = y :: ys
    rw [ih hys]
    cases ys with
    | nil => rfl
    | cons z zs =>
      have hzy := hy z (List.mem_cons_self _ _)
      simp [insertAssoc, hzy]

lemma dictInsert_keys (d : List (PyStr × PyStr)) (k v : PyStr) :
    (dictInsert d k v).map Prod.fst =
      if d.any (fun e => e.1 = k) then d.map Prod.fst else d.map Prod.fst ++ [k] := by
  unfold dictInsert
  split
  · rw [List.map_map]
    apply List.map_congr_left
    intro e _
    by_cases h : e.1 = k
    · simp [Function.comp, h]
    · simp [Function.comp, h]
  · rw [List.map_append]
    rfl

lemma dictInsert_keys_nodup (d : List (PyStr × PyStr)) (k v : PyStr)
    (h : (d.map Prod.fst).Nodup) : ((dictInsert d k v).map Prod.fst).Nodup := by
  rw [dictInsert_keys]
  split
  · exact h
  · rename_i hany
    have hk : k ∉ d.map Prod.fst := by
      intro hkm
      obtain ⟨e, he, hek⟩ := List.mem_map.mp hkm
      exact hany (List.any_eq_true.mpr ⟨e, he, by simp [hek]⟩)
    exact h.append (List.nodup_singleton k)
      (fun x hx hxk => hk ((List.mem_singleton.mp hxk) ▸ hx))

lemma toDict_fold_keys_nodup (l acc : List (PyStr × PyStr))
    (h : (acc.map Prod.fst).Nodup) :
    ((l.foldl (fun d e => dictInsert d e.1 e.2) acc).map Prod.fst).Nodup := by
  induction l generalizing acc with
  | nil => exact h
  | cons e es ih => exact ih _ (dictInsert_keys_nodup acc e.1 e.2 h)

lemma toDict_keys_nodup (l : List (PyStr × PyStr)) :
    ((toDict l).map Prod.fst).Nodup :=
  toDict_fold_keys_nodup l [] (by simp)

lemma toDict_fold_id (l acc : List (PyStr × PyStr))
    (h : ((acc.map Prod.fst) ++ (l.map Prod.fst)).Nodup) :
    l.foldl (fun d e => dictInsert d e.1 e.2) acc = acc ++ l := by
  induction l generalizing acc with
  | nil => simp
  | cons e es ih =>
    have hek : ¬ (acc.any (fun x => x.1 = e.1)) = true := by
      intro hany
      obtain ⟨x, hx, hxe⟩ := List.any_eq_true.mp hany
      simp only [decide_eq_true_eq] at hxe
      have h1 : e.1 ∈ acc.map Prod.fst := List.mem_map.mpr ⟨x, hx, hxe⟩
      exact (List.nodup_append.mp h).2.2 h1 (by simp)
    have hstep : dictInsert acc e.1 e.2 = acc ++ [e] := by
      unfold dictInsert
      rw [if_neg hek]
    rw [List.foldl_cons, hstep, ih (acc ++ [e]) (by simpa using h)]
    simp

lemma toDict_id_of_nodup (l : List (PyStr × PyStr))
    (h : (l.map Prod.fst).Nodup) : toDict l = l := by
  have := toDict_fold_id l [] (by simpa using h)
  simpa using this

lemma toDict_fold_keys_sublist (l acc : List (PyStr × PyStr)) :
    ((l.foldl (fun d e => dictInsert d e.1 e.2) acc).map Prod.fst).Sublist
      (acc.map Prod.fst ++ l.map Prod.fst) := by
  induction l generalizing acc with
  | nil => simp
  | cons e es ih =>
    refine (ih (dictInsert acc e.1 e.2)).trans ?_
    rw [dictInsert_keys]
    split
    · simp only [List.map_cons]
      exact List.Sublist.append_left (List.sublist_cons_self _ _) _
    · simp only [List.map_cons, List.append_assoc, List.singleton_append]
      exact List.Sublist.refl _

lemma toDict_keys_sublist (l : List (PyStr × PyStr)) :
    ((toDict l).map Prod.fst).Sublist (l.map Prod.fst) := by
  simpa using toDict_fold_keys_sublist l []

lemma from_url_of_split (s sc nl pa q fr : PyStr)
    (hr : urlsplit s = .ok ⟨sc, nl, pa, q, fr⟩)
    (hhs : hasSub (pstr ("://")) q = false) :
    CallbackURL.from_url s = .ok ⟨sc, nl, pa,
      toDict (sortPairs ((parseQsl q).filter (fun e => !isPlaceholderPair e))), fr,
      sortStrs (((parseQsl q).filter isPlaceholderPair).map (·.1))⟩ := by
  unfold CallbackURL.from_url
  rw [hr]
  simp only [hhs, Bool.false_eq_true, if_false]

lemma reclassify_query (D : List (PyStr × PyStr)) (P : List PyStr)
    (hDpw : D.Pairwise (fun a b => strLt b.1 a.1 = false))
    (hDnd : (D.map Prod.fst).Nodup)
    (hDnp : ∀ e ∈ D, (!isPlaceholderPair e) = true) :
    toDict (sortPairs ((D ++ (sortStrs P).map (fun p => (p, 123 :: p ++ [125]))).filter
      (fun e => !isPlaceholderPair e))) = D := by
  have hB : ∀ e ∈ (sortStrs P).map (fun p => (p, 123 :: p ++ [125])),
      isPlaceholderPair e = true := by
    intro e he
    obtain ⟨p, _, hpe⟩ := List.mem_map.mp he
    rw [← hpe]
    simp [isPlaceholderPair]
  rw [List.filter_append, List.filter_eq_self.mpr hDnp,
    List.filter_eq_nil_iff.mpr (fun e he => by simp [hB e he]), List.append_nil,
    sortPairs_id_of_pairwise D hDpw, toDict_id_of_nodup D hDnd]

lemma reclassify_placeholders (D : List (PyStr × PyStr)) (P : List PyStr)
    (hDnp : ∀ e ∈ D, (!isPlaceholderPair e) = true) :
    sortStrs (((D ++ (sortStrs P).map (fun p => (p, 123 :: p ++ [125]))).filter
      isPlaceholderPair).map (fun (e : PyStr × PyStr) => e.1)) = sortStrs P := by
  have hB : ∀ e ∈ (sortStrs P).map (fun p => (p, 123 :: p ++ [125])),
      isPlaceholderPair e = true := by
    intro e he
    obtain ⟨p, _, hpe⟩ := List.mem_map.mp he
    rw [← hpe]
    simp [isPlaceholderPair]
  have hDfail : ∀ e ∈ D, ¬ isPlaceholderPair e = true := by
    intro e he
    have := hDnp e he
    simp only [Bool.not_eq_true'] at this
    simp [this]
  rw [List.filter_append, List.filter_eq_nil_iff.mpr hDfail, List.nil_append,
    List.filter_eq_self.mpr hB, List.map_map]
  have hmap : ((fun (x : PyStr × PyStr) => x.1) ∘ (fun (p : PyStr) => (p, 123 :: p ++ [125])))
      = id := by
    funext p
    rfl
  rw [hmap, List.map_id, sortStrs_id_of_pairwise _ (sortStrs_pairwise P)]

lemma roundtrip_assemble (sc nl pa qstr fr : PyStr)
    (hsc : sc = [] ∨ ∃ b bs, sc = b :: bs ∧ isAsciiAlpha b = true ∧
      bs.all isSchemeChar = true ∧ List.map lowerByte (b :: bs) = b :: bs)
    (hn : nl ≠ [])
    (hstop : ∀ b ∈ nl, ¬(b = 47 ∨ b = 63 ∨ b = 35))
    (hbr : (nl.contains 91 && !nl.contains 93 || nl.contains 93 && !nl.contains 91) = false)
    (hpash : nl ≠ [] → pa = [] ∨ ∃ t, pa = 47 :: t)
    (hpa35 : 35 ∉ pa) (hpa63 : 63 ∉ pa)
    (hnl_clean : ∀ b ∈ nl, b ≠ 9 ∧ b ≠ 13 ∧ b ≠ 10)
    (hpa_clean : ∀ b ∈ pa, b ≠ 9 ∧ b ≠ 13 ∧ b ≠ 10)
    (hfr_clean : ∀ b ∈ fr, b ≠ 9 ∧ b ≠ 13 ∧ b ≠ 10)
    (hqb : ∀ b ∈ qstr, b < 256) :
    CallbackURL.from_url (CallbackURL.url ⟨sc, nl, pa,
      toDict (sortPairs ((parseQsl qstr).filter (fun e => !isPlaceholderPair e))), fr,
      sortStrs (((parseQsl qstr).filter isPlaceholderPair).map (·.1))⟩) =
    .ok ⟨sc, nl, pa,
      toDict (sortPairs ((parseQsl qstr).filter (fun e => !isPlaceholderPair e))), fr,
      sortStrs (((parseQsl qstr).filter isPlaceholderPair).map (·.1))⟩ := by
  have hqslb := parseQsl_bound qstr hqb
  have hkeys : ((sortPairs ((parseQsl qstr).filter (fun e => !isPlaceholderPair e))).map
      Prod.fst).Pairwise (fun a b => strLt b a = false) :=
    List.pairwise_map.mpr (sortPairs_pairwise _)
  have hkeys2 : ((toDict (sortPairs ((parseQsl qstr).filter
      (fun e => !isPlaceholderPair e)))).map Prod.fst).Pairwise
      (fun a b => strLt b a = false) :=
    hkeys.sublist (toDict_keys_sublist _)
  have hDpw : (toDict (sortPairs ((parseQsl qstr).filter
      (fun e => !isPlaceholderPair e)))).Pairwise (fun a b => strLt b.1 a.1 = false) :=
    List.pairwise_map.mp hkeys2
  have hDnd := toDict_keys_nodup (sortPairs ((parseQsl qstr).filter
    (fun e => !isPlaceholderPair e)))
  have hDnp : ∀ e ∈ toDict (sortPairs ((parseQsl qstr).filter
      (fun e => !isPlaceholderPair e))), (!isPlaceholderPair e) = true :=
    fun e he => (List.mem_filter.mp ((mem_sortPairs e _).mp (mem_toDict _ e he))).2
  have hDb : ∀ e ∈ toDict (sortPairs ((parseQsl qstr).filter
      (fun e => !isPlaceholderPair e))), (∀ b ∈ e.1, b < 256) ∧ (∀ b ∈ e.2, b < 256) :=
    fun e he => hqslb e (List.mem_filter.mp ((mem_sortPairs e _).mp (mem_toDict _ e he))).1
  have hPb : ∀ p ∈ sortStrs (((parseQsl qstr).filter isPlaceholderPair).map (·.1)),
      ∀ b ∈ p, b < 256 := by
    intro p hp
    obtain ⟨e, he, hep⟩ := List.mem_map.mp ((mem_sortStrs p _).mp hp)
    have := (hqslb e (List.mem_filter.mp he).1).1
    exact hep ▸ this
  generalize hDg : toDict (sortPairs ((parseQsl qstr).filter
    (fun e => !isPlaceholderPair e))) = D
  rw [hDg] at hDpw hDnd hDnp hDb
  generalize hPg : sortStrs (((parseQsl qstr).filter isPlaceholderPair).map (·.1)) = P
  rw [hPg] at hPb
  have hPs : sortStrs P = P := by
    rw [← hPg]
    exact sortStrs_id_of_pairwise _ (sortStrs_pairwise _)
  have hpairsb : ∀ e ∈ D ++ (sortStrs P).map (fun p => (p, 123 :: p ++ [125])),
      (∀ b ∈ e.1, b < 256) ∧ (∀ b ∈ e.2, b < 256) := by
    intro e he
    rcases List.mem_append.mp he with he | he
    · exact hDb e he
    · obtain ⟨p, hp, hpe⟩ := List.mem_map.mp he
      have hpb : ∀ b ∈ p, b < 256 := hPb p ((mem_sortStrs p P).mp hp)
      rw [← hpe]
      refine ⟨hpb, ?_⟩
      intro b hbm
      rcases List.mem_cons.mp hbm with hbm | hbm
      · omega
      · rcases List.mem_append.mp hbm with hbm | hbm
        · exact hpb b hbm
        · have := List.mem_singleton.mp hbm
          omega
  have hq35 : ∀ b ∈ urlencode (D ++ (sortStrs P).map (fun p => (p, 123 :: p ++ [125]))),
      32 < b ∧ b ≠ 35 := fun b hbm =>
    ⟨(urlencode_byte_facts _ b hpairsb hbm).1, (urlencode_byte_facts _ b hpairsb hbm).2.1⟩
  have h58 : ∀ b ∈ urlencode (D ++ (sortStrs P).map (fun p => (p, 123 :: p ++ [125]))),
      b ≠ 58 := fun b hbm => (urlencode_byte_facts _ b hpairsb hbm).2.2
  have hsplit := urlsplit_unsplit sc nl pa
    (urlencode (D ++ (sortStrs P).map (fun p => (p, 123 :: p ++ [125])))) fr
    hsc hn hstop hbr (hpash hn) hpa35 hpa63 hq35 hnl_clean hpa_clean hfr_clean
  have hfu := from_url_of_split _ sc nl pa
    (urlencode (D ++ (sortStrs P).map (fun p => (p, 123 :: p ++ [125])))) fr
    hsplit (hasSub_colon_free _ h58)
  have hQ := parseQsl_urlencode (D ++ (sortStrs P).map (fun p => (p, 123 :: p ++ [125])))
    hpairsb
  rw [hQ, reclassify_query D P hDpw hDnd hDnp, reclassify_placeholders D P hDnp] at hfu
  nth_rewrite 2 [hPs] at hfu
  exact hfu

/-- C1 counterexample: the round trip fails for arbitrary `CallbackURL`
values.  First, a URL whose query dict stores the pair `a ↦ \x7ba\x7d`
serializes to `https://h?a=\x7ba\x7d` (braces are in the safe set), and
re-parsing classifies that pair as a placeholder marker: the query dict
and the placeholder list both change, so the reparse is not even
Python-equal (`==`) to the original.  Second, the failure also occurs
inside the image of `from_url` when the netloc is empty: parsing
`////x` yields path `//x` with empty scheme and netloc, its `url`
property is `//x`, and re-parsing that string turns `x` into a netloc. -/
theorem C1_counterexample :
    (CallbackURL.from_url (CallbackURL.url
        ⟨pstr ("https"), pstr ("h"), [], [(pstr ("a"), pstr ("\x7ba\x7d"))], [], []⟩)).map
      (urlEq ⟨pstr ("https"), pstr ("h"), [], [(pstr ("a"), pstr ("\x7ba\x7d"))], [], []⟩)
      ≠ Except.ok true ∧
    CallbackURL.from_url (pstr ("////x")) =
      .ok ⟨[], [], pstr ("//x"), [], [], []⟩ ∧
    CallbackURL.from_url (CallbackURL.url ⟨[], [], pstr ("//x"), [], [], []⟩) ≠
      .ok ⟨[], [], pstr ("//x"), [], [], []⟩ := by
  refine ⟨by decide, by decide, by decide⟩

/-- C1 (amended): round trip on the image of the parser.  For every
`CallbackURL` obtained from `CallbackURL.from_url` on a byte string
(every Python `str` character below 256) whose parsed netloc is
nonempty, parsing the `url` property returns exactly the same
`CallbackURL`: serialization loses nothing for parsed URLs with a
host part. -/
theorem C1_roundtrip (s : PyStr) (u : CallbackURL)
    (h : CallbackURL.from_url s = .ok u)
    (hb : ∀ b ∈ s, b < 256)
    (hn : u.netloc ≠ []) :
    CallbackURL.from_url u.url = .ok u := by
  cases hrs : urlsplit s with
  | error e =>
    unfold CallbackURL.from_url at h
    rw [hrs] at h
    exact Except.noConfusion h
  | ok r =>
    obtain ⟨hhs, hu⟩ := from_url_ok_parts s r u hrs h
    subst hu
    obtain ⟨hsc_shape, hstop, hbr, hpash, hpa35, hpa63, hnlm, hpam, hqm, hfrm⟩ :=
      urlsplit_ok_props s r hrs
    have hn2 : r.netloc ≠ [] := hn
    have hqb : ∀ b ∈ r.query, b < 256 :=
      fun b hbm => hb b (removeUnsafe_mem s b (hqm b hbm)).1
    exact roundtrip_assemble r.scheme r.netloc r.path r.query r.fragment
      hsc_shape hn2 hstop hbr hpash hpa35 hpa63
      (fun b hbm => (removeUnsafe_mem s b (hnlm b hbm)).2)
      (fun b hbm => (removeUnsafe_mem s b (hpam b hbm)).2)
      (fun b hbm => (removeUnsafe_mem s b (hfrm b hbm)).2)
      hqb

/-- C1 witness: `https://h/p?a=1&b=\x7bb\x7d` parses to a URL with query
`a ↦ 1` and placeholder `b`, and the round trip theorem applies to it
at its concrete hypotheses. -/
theorem C1_witness :
    CallbackURL.from_url (pstr ("https://h/p?a=1&b=\x7bb\x7d")) =
      .ok ⟨pstr ("https"), pstr ("h"), pstr ("/p"), [(pstr ("a"), pstr ("1"))], [],
        [pstr ("b")]⟩ ∧
    CallbackURL.from_url (CallbackURL.url
      ⟨pstr ("https"), pstr ("h"), pstr ("/p"), [(pstr ("a"), pstr ("1"))], [],
        [pstr ("b")]⟩) =
      .ok ⟨pstr ("https"), pstr ("h"), pstr ("/p"), [(pstr ("a"), pstr ("1"))], [],
        [pstr ("b")]⟩ :=
  ⟨by decide,
   C1_roundtrip (pstr ("https://h/p?a=1&b=\x7bb\x7d"))
     ⟨pstr ("https"), pstr ("h"), pstr ("/p"), [(pstr ("a"), pstr ("1"))], [], [pstr ("b")]⟩
     (by decide) (by decide) (by decide)⟩

end AdjustCLI
